import Mathlib

/-!
# Deterministic finite automata: graph store, reachability, simulation, minimisation

A shallow embedding of `src/DFA.cpp`.

* `std::set<T>` is a strictly increasing list (`setInsert` keeps the order), so that
  range-for loops over a set visit the elements in the order the C++ code does.
* `std::map<state, V>` is an association list kept in key order (`mapFind`, `mapSet`).
* `std::set<std::set<state>>` is a list of blocks kept in lexicographic order
  (`ssInsert`, `ssErase`), `*w.begin()` being the head of the list.
* The three `while` loops (the two breadth-first searches and the worklist loop of
  `minimize`) are recursions on a fuel argument; they answer `none` when the fuel runs
  out before the loop condition fails.
-/

namespace FA

/-- Modelled from the spec: the declaration of `state` is in `DFA.h`, which is not part of
the sources; the spec describes a state as a non-negative integer identifier. -/
abbrev state := Nat

/-- Modelled from the spec: the declaration of `letter` is in `DFA.h`, which is not part of
the sources; `DFA::valid` reads letters from a `std::string`, so a letter is a character,
represented here by its code. -/
abbrev letter := Nat

/-- Modelled from the spec: the record `Edge` is declared in `DFA.h`; `add_edge` builds it
as `{b, s}` and the code reads its members `next` and `transition`. -/
structure Edge where
  next : state
  transition : letter
deriving DecidableEq, Repr

/-! ## Ordered containers -/

/-- The lookup `m.find(key)` of a `std::map`: `none` stands for `m.end()`. -/
def mapFind {α : Type} : List (state × α) → state → Option α
  | [], _ => none
  | (k, v) :: rest, key => if key = k then some v else mapFind rest key

/-- The assignment `m[key] = v` of a `std::map`, keeping the keys in increasing order. -/
def mapSet {α : Type} : List (state × α) → state → α → List (state × α)
  | [], key, v => [(key, v)]
  | (k, w) :: rest, key, v =>
      if key < k then (key, v) :: (k, w) :: rest
      else if key = k then (key, v) :: rest
      else (k, w) :: mapSet rest key v

/-- The call `s.insert(x)` of a `std::set` of integers. -/
def setInsert : List Nat → Nat → List Nat
  | [], x => [x]
  | y :: ys, x =>
      if x < y then x :: y :: ys
      else if x = y then y :: ys
      else y :: setInsert ys x

/-- Modelled from the spec: the helper `intersection` is declared outside `DFA.cpp`; it
returns the set of the elements of the first set that belong to the second. -/
def intersection (a b : List Nat) : List Nat :=
  a.filter (fun x => decide (x ∈ b))

/-- Modelled from the spec: the helper `difference` is declared outside `DFA.cpp`; it
returns the set of the elements of the first set that do not belong to the second. -/
def difference (a b : List Nat) : List Nat :=
  a.filter (fun x => decide (x ∉ b))

/-- The order `operator<` of `std::set<state>`: lexicographic comparison. -/
def lexLt : List Nat → List Nat → Bool
  | [], [] => false
  | [], _ :: _ => true
  | _ :: _, [] => false
  | x :: xs, y :: ys => if x < y then true else if y < x then false else lexLt xs ys

/-- The call `ss.insert(s)` of a `std::set<std::set<state>>`. -/
def ssInsert : List (List Nat) → List Nat → List (List Nat)
  | [], s => [s]
  | t :: ts, s =>
      if lexLt s t then s :: t :: ts
      else if s = t then t :: ts
      else t :: ssInsert ts s

/-- The call `ss.erase(s)` of a `std::set<std::set<state>>`. -/
def ssErase : List (List Nat) → List Nat → List (List Nat)
  | [], _ => []
  | t :: ts, s => if s = t then ts else t :: ssErase ts s

/-! ## The automaton -/

/-- The data members of `class DFA`. -/
structure DFA where
  graph : List (state × List Edge)
  transposed : List (state × List state)
  start : state
  final : List state
deriving DecidableEq, Repr

namespace DFA

/-- Modelled from the spec: a default-constructed `DFA` (the constructor is in `DFA.h`).
Its maps and its final set are empty; the value `s0` of the member `start` before any
`set_initial` call is not fixed by the sources and is a parameter. -/
def empty (s0 : state) : DFA :=
  { graph := [], transposed := [], start := s0, final := [] }

/-- Modelled from the spec: `set_initial` is defined in `DFA.h`; a pure setter of `start`. -/
def set_initial (d : DFA) (q : state) : DFA :=
  { d with start := q }

/-- Modelled from the spec: `set_final` is defined in `DFA.h`; it inserts the state in the
set `final`. -/
def set_final (d : DFA) (q : state) : DFA :=
  { d with final := setInsert d.final q }

/-- The edge list `graph[a]` read without creating it (empty when `a` is not a key). -/
def edges (d : DFA) (a : state) : List Edge :=
  (mapFind d.graph a).getD []

/-- The predecessor list `transposed[b]` read without creating it. -/
def preds (d : DFA) (b : state) : List state :=
  (mapFind d.transposed b).getD []

/-- The scan at the top of `add_edge`: the first edge with letter `s` gets the
destination `b`; `none` when the loop ends without returning. -/
def overwrite : List Edge → state → letter → Option (List Edge)
  | [], _, _ => none
  | e :: es, b, s =>
      if e.transition = s then some ({ next := b, transition := e.transition } :: es)
      else (overwrite es b s).map (fun r => e :: r)

/-- The method `DFA::add_edge`. -/
def add_edge (d : DFA) (a b : state) (s : letter) : DFA :=
  match overwrite (d.edges a) b s with
  | some vec => { d with graph := mapSet d.graph a vec }
  | none =>
      { d with
        graph := mapSet d.graph a (d.edges a ++ [{ next := b, transition := s }])
        transposed := mapSet d.transposed b (d.preds b ++ [a]) }

/-! ## Breadth-first searches -/

/-- The inner `for` loop of both searches: every neighbour not yet in `reachable` is
inserted in `reachable` and pushed at the back of `current`. -/
def visit : List state → List state → List state → List state × List state
  | [], current, reachable => (current, reachable)
  | n :: ns, current, reachable =>
      if n ∈ reachable then visit ns current reachable
      else visit ns (current ++ [n]) (setInsert reachable n)

/-- The `while (!current.empty())` loop of both searches; `nbrs here` is `none` when
`here` is not a key of the map that is searched (the `continue` branch). -/
def bfs (nbrs : state → Option (List state)) :
    Nat → List state → List state → Option (List state)
  | _, [], reachable => some reachable
  | 0, _ :: _, _ => none
  | fuel + 1, here :: rest, reachable =>
      match nbrs here with
      | none => bfs nbrs fuel rest reachable
      | some vec => bfs nbrs fuel (visit vec rest reachable).1 (visit vec rest reachable).2

/-- Every predecessor recorded in `transposed`. -/
def all_preds (d : DFA) : List state :=
  (d.transposed.map (fun kv => kv.2)).flatten

/-- Every destination of an edge of `graph`. -/
def all_nexts (d : DFA) : List state :=
  (d.graph.map (fun kv => kv.2.map (fun e => e.next))).flatten

/-- The method `DFA::alive_states`. -/
def alive_states (d : DFA) : Option (List state) :=
  bfs (fun here => mapFind d.transposed here)
    (d.final.length + d.all_preds.length + 1)
    d.final (d.final.foldl setInsert [])

/-- The method `DFA::reachable_states`. -/
def reachable_states (d : DFA) : Option (List state) :=
  bfs (fun here => (mapFind d.graph here).map (fun vec => vec.map (fun e => e.next)))
    (d.all_nexts.length + 2)
    [d.start] [d.start]

/-- The method `DFA::valid_states`. -/
def valid_states (d : DFA) : Option (List state) :=
  match d.alive_states, d.reachable_states with
  | some a, some r => some (intersection a r)
  | _, _ => none

/-! ## Simulation -/

/-- The inner loop of `DFA::valid`: the destination of the first edge with letter `x`. -/
def find_edge : List Edge → letter → Option state
  | [], _ => none
  | e :: es, x => if e.transition = x then some e.next else find_edge es x

/-- The loop of `DFA::valid` started in the state `current`. -/
def valid_from (d : DFA) : state → List letter → Bool
  | current, [] => decide (current ∈ d.final)
  | current, x :: word =>
      match mapFind d.graph current with
      | none => false
      | some vec =>
          match find_edge vec x with
          | none => false
          | some nxt => valid_from d nxt word

/-- The method `DFA::valid`. -/
def valid (d : DFA) (word : List letter) : Bool :=
  valid_from d d.start word

/-! ## Minimisation -/

/-- Every state named by the automaton: `start`, the final states, the sources and the
destinations of the edges. -/
def states (d : DFA) : List state :=
  (d.start :: d.final ++ d.graph.map (fun kv => kv.1) ++ d.all_nexts).foldl setInsert []

/-- Modelled from the spec: `non_final` is defined in `DFA.h`; the states of the
automaton that are not in `final`. -/
def non_final (d : DFA) : List state :=
  difference d.states d.final

/-- Modelled from the spec: `alphabet` is defined in `DFA.h`; the set of the letters that
label an edge of `graph`. -/
def alphabet (d : DFA) : List letter :=
  ((d.graph.map (fun kv => kv.2.map (fun e => e.transition))).flatten).foldl setInsert []

/-- The scan of one edge list while the set `X` is computed: is there an edge with letter
`c` whose destination is in `a`? -/
def leads_into (a : List state) (c : letter) : List Edge → Bool
  | [] => false
  | e :: es => if e.transition = c ∧ e.next ∈ a then true else leads_into a c es

/-- The set `X` of `minimize`: the valid keys of `graph` with an edge on `c` into `a`. -/
def compute_x (valid a : List state) (c : letter) :
    List (state × List Edge) → List state → List state
  | [], x => x
  | node :: rest, x =>
      if node.1 ∈ valid then
        (if leads_into a c node.2 then compute_x valid a c rest (setInsert x node.1)
         else compute_x valid a c rest x)
      else compute_x valid a c rest x

/-- The body of `for (const auto &y: p)`, acting on the pair `(old_p, w)`. -/
def split_block (x : List state) (pw : List (List state) × List (List state))
    (y : List state) : List (List state) × List (List state) :=
  if (intersection x y).isEmpty ∨ (difference y x).isEmpty then pw
  else
    (ssInsert (ssInsert (ssErase pw.1 y) (intersection x y)) (difference y x),
     if y ∈ pw.2 then
       ssInsert (ssInsert (ssErase pw.2 y) (intersection x y)) (difference y x)
     else if (intersection x y).length ≤ (difference y x).length then
       ssInsert pw.2 (intersection x y)
     else
       ssInsert pw.2 (difference y x))

/-- The body of `for (letter c: letters)`, acting on the pair `(p, w)`. -/
def refine_letter (d : DFA) (valid a : List state)
    (pw : List (List state) × List (List state)) (c : letter) :
    List (List state) × List (List state) :=
  pw.1.foldl (split_block (compute_x valid a c d.graph [])) (pw.1, pw.2)

/-- The loop `while (!w.empty())` of `minimize`; it returns the final partition `p`. -/
def refine (d : DFA) (valid : List state) (letters : List letter) :
    Nat → List (List state) → List (List state) → Option (List (List state))
  | _, p, [] => some p
  | 0, _, _ :: _ => none
  | fuel + 1, p, a :: w =>
      refine d valid letters fuel
        (letters.foldl (refine_letter d valid a) (p, w)).1
        (letters.foldl (refine_letter d valid a) (p, w)).2

/-- The first numbering loop of `minimize`: the map `partitions`. -/
def number_blocks : List (List state) → Nat → List (state × Nat) → List (state × Nat)
  | [], _, partitions => partitions
  | s :: rest, index, partitions =>
      number_blocks rest (index + 1) (s.foldl (fun m x => mapSet m x index) partitions)

/-- The innermost loop of the construction of the result: the edges of one state. The
lookup `partitions[edge.next]` of a missing key yields the value-initialised index `0`. -/
def emit_edges (valid : List state) (partitions : List (state × Nat)) (index : Nat) :
    List Edge → DFA → DFA
  | [], result => result
  | e :: es, result =>
      if e.next ∈ valid then
        emit_edges valid partitions index es
          (result.add_edge index ((mapFind partitions e.next).getD 0) e.transition)
      else emit_edges valid partitions index es result

/-- The body of `for (state x: s)` in the construction of the result. -/
def emit_state (d : DFA) (valid : List state) (partitions : List (state × Nat))
    (index : Nat) (result : DFA) (x : state) : DFA :=
  let r1 := if x ∈ d.final then result.set_final index else result
  let r2 := if x = d.start then r1.set_initial index else r1
  match mapFind d.graph x with
  | none => r2
  | some vec => emit_edges valid partitions index vec r2

/-- The second loop over `p` of `minimize`: the construction of the result. -/
def emit_blocks (d : DFA) (valid : List state) (partitions : List (state × Nat)) :
    List (List state) → Nat → DFA → DFA
  | [], _, result => result
  | s :: rest, index, result =>
      emit_blocks d valid partitions rest (index + 1)
        (s.foldl (emit_state d valid partitions index) result)

/-- The initial value of `w` and of `p` in `minimize`. -/
def initial_partition (d : DFA) (valid : List state) : List (List state) :=
  ssInsert (ssInsert [] (intersection d.final valid)) (intersection d.non_final valid)

/-- The final partition `p` computed by `minimize`. -/
def final_partition (d : DFA) : Option (List (List state)) :=
  match d.valid_states with
  | none => none
  | some valid =>
      refine d valid d.alphabet (valid.length + 2)
        (initial_partition d valid) (initial_partition d valid)

/-- The method `DFA::minimize`; `s0` is the value of `start` in the default-constructed
`result`. -/
def minimize (s0 : state) (d : DFA) : Option DFA :=
  match d.valid_states, d.final_partition with
  | some valid, some p =>
      some (emit_blocks d valid (number_blocks p 0 []) p 0 (empty s0))
  | _, _ => none

/-- The number of states of the result of `minimize`: the non-empty blocks of `p`. -/
def block_count (p : List (List state)) : Nat :=
  (p.filter (fun s => !s.isEmpty)).length

/-! ## Building an automaton by calls -/

/-- A call of one of the three mutators. -/
inductive Op where
  | add_edge (a b : state) (s : letter)
  | set_initial (q : state)
  | set_final (q : state)
deriving DecidableEq, Repr

/-- The effect of one call. -/
def apply_op (d : DFA) : Op → DFA
  | Op.add_edge a b s => d.add_edge a b s
  | Op.set_initial q => d.set_initial q
  | Op.set_final q => d.set_final q

/-- The automaton obtained from a default-constructed one by a sequence of calls. -/
def build (s0 : state) (ops : List Op) : DFA :=
  ops.foldl apply_op (empty s0)

/-! ## Reference notions the properties are stated with -/

/-- The letters of an edge list, in order. -/
def letters_of (vec : List Edge) : List letter :=
  vec.map (fun e => e.transition)

/-- Determinism of the store: no edge list has two edges with the same letter. -/
def Deterministic (d : DFA) : Prop :=
  ∀ a : state, (letters_of (d.edges a)).Nodup

/-- The reference of the simulator, after the spec: `Run d q w q2` holds when every letter
of `w`, in order, has a matching outgoing edge from the current state, starting in `q` and
following that edge, and the state reached after the last letter is `q2`. -/
inductive Run (d : DFA) : state → List letter → state → Prop
  | done (q : state) : Run d q [] q
  | step {q : state} {x : letter} {w : List letter} {q2 : state} (e : Edge) :
      e ∈ d.edges q → e.transition = x → Run d e.next w q2 → Run d q (x :: w) q2

/-- The reference of `accepts`, after the spec: the run of `w` from `start` exists and
ends in a final state. -/
def Accepts (d : DFA) (w : List letter) : Prop :=
  ∃ q : state, Run d d.start w q ∧ q ∈ d.final

/-- A live forward edge from `a` to `b`. -/
def Step (d : DFA) (a b : state) : Prop :=
  ∃ e : Edge, e ∈ d.edges a ∧ e.next = b

/-- A path of zero or more live forward edges from `a` to `b`. -/
def Path (d : DFA) (a b : state) : Prop :=
  Relation.ReflTransGen (Step d) a b

/-- One step of a search: `b` is in the list that the searched map gives for `a`. -/
def Nbr (nbrs : state → Option (List state)) (a b : state) : Prop :=
  ∃ vec : List state, nbrs a = some vec ∧ b ∈ vec

/-- The deletion of a state, an operation the class does not offer and that the validity
property speaks of: the key `q` leaves both maps, the edges into `q` leave every edge list
and `q` leaves `final`. -/
def delete_state (d : DFA) (q : state) : DFA :=
  { graph := (d.graph.filter (fun kv => decide (kv.1 ≠ q))).map
      (fun kv => (kv.1, kv.2.filter (fun e => decide (e.next ≠ q))))
    transposed := (d.transposed.filter (fun kv => decide (kv.1 ≠ q))).map
      (fun kv => (kv.1, kv.2.filter (fun x => decide (x ≠ q))))
    start := d.start
    final := d.final.filter (fun x => decide (x ≠ q)) }

/-! ## Automata built with a call of `add_edge` that redirects an existing edge -/

/-- Start `0`, final `2`, edges `0 -a-> 1`, `0 -b-> 2` and `1 -a-> 2`, the last one
redirected from `1 -a-> 9`. -/
def redirected_accepting (s0 : state) : DFA :=
  build s0 [Op.add_edge 0 1 97, Op.add_edge 0 2 98, Op.add_edge 1 9 97, Op.add_edge 1 2 97,
    Op.set_initial 0, Op.set_final 2]

/-- Start `0`, final `1`, edges `0 -a-> 2` and `2 -a-> 4`, the last one redirected from
`2 -a-> 1`. -/
def redirected_dead (s0 : state) : DFA :=
  build s0 [Op.add_edge 0 2 97, Op.add_edge 2 1 97, Op.add_edge 2 4 97,
    Op.set_initial 0, Op.set_final 1]

/-- The same calls as `redirected_dead`, used for the count of blocks. -/
def redirected_twice_minimized (s0 : state) : DFA :=
  build s0 [Op.add_edge 0 2 97, Op.add_edge 2 1 97, Op.add_edge 2 4 97,
    Op.set_initial 0, Op.set_final 1]

/-- Final `2` and the edge `0 -a-> 2`, redirected from `0 -a-> 1`. -/
def redirected_to_final (s0 : state) : DFA :=
  build s0 [Op.add_edge 0 1 97, Op.add_edge 0 2 97, Op.set_final 2]

/-- Final `1` and the edge `0 -a-> 2`, redirected from `0 -a-> 1`. -/
def redirected_from_final (s0 : state) : DFA :=
  build s0 [Op.add_edge 0 1 97, Op.add_edge 0 2 97, Op.set_final 1]

/-- Start `0`, final `2`, edges `0 -a-> 1`, `0 -b-> 2` and `1 -a-> 2`, the last one
redirected from `1 -a-> 9`; used for the deletion of state `1`. -/
def redirected_useful (s0 : state) : DFA :=
  build s0 [Op.add_edge 0 1 97, Op.add_edge 0 2 98, Op.add_edge 1 9 97, Op.add_edge 1 2 97,
    Op.set_initial 0, Op.set_final 2]

/-! ## The scenario of the spec -/

/-- The automaton of the concrete scenario: start `0`, final `2`, edges `0 -a-> 1`,
`1 -b-> 2`, `2 -a-> 2`, `2 -b-> 2` and the unreachable state `3` with `3 -a-> 3`. -/
def scenario (s0 : state) : DFA :=
  build s0 [Op.add_edge 0 1 97, Op.add_edge 1 2 98, Op.add_edge 2 2 97, Op.add_edge 2 2 98,
    Op.add_edge 3 3 97, Op.set_initial 0, Op.set_final 2]

/-! ## Notions for the refinement loop -/

/-- The partition invariant of the refinement loop of `minimize`, for the partition `p`
and the worklist `w`: both are sets of blocks, every set in `w` is a block of `p`, the
blocks of `p` are pairwise disjoint, their union is `valid`, and every block is inside
`final` or disjoint from it. -/
structure PartitionInv (final valid : List state) (p w : List (List state)) : Prop where
  nodup_p : p.Nodup
  nodup_w : w.Nodup
  w_sub : ∀ t : List state, t ∈ w → t ∈ p
  within : ∀ Y : List state, Y ∈ p → ∀ q : state, q ∈ Y → q ∈ valid
  cover : ∀ q : state, q ∈ valid → ∃ Y : List state, Y ∈ p ∧ q ∈ Y
  disjoint : ∀ Y1 : List state, Y1 ∈ p → ∀ Y2 : List state, Y2 ∈ p →
    ∀ q : state, q ∈ Y1 → q ∈ Y2 → Y1 = Y2
  homogeneous : ∀ Y : List state, Y ∈ p →
    (∀ q : state, q ∈ Y → q ∈ final) ∨ (∀ q : state, q ∈ Y → q ∉ final)

/-- The states of the refinement loop of `minimize`: the pair `(p, w)` is the initial
one, or comes from a loop state by removing a set from `w`, or by one execution of the
body of `for (const auto &y: p)` on a block `y` of `p`. -/
inductive LoopState (d : DFA) (valid : List state) :
    List (List state) → List (List state) → Prop
  | start : LoopState d valid (initial_partition d valid) (initial_partition d valid)
  | pop {p w : List (List state)} {a : List state} :
      LoopState d valid p (a :: w) → LoopState d valid p w
  | split {p w : List (List state)} (x y : List state) :
      LoopState d valid p w → y ∈ p →
      LoopState d valid (split_block x (p, w) y).1 (split_block x (p, w) y).2

/-- The keys of `graph` are in strictly increasing order, as in a `std::map`. -/
def KeysSorted (d : DFA) : Prop :=
  (d.graph.map (fun kv => kv.1)).Pairwise (fun a b => a < b)

/-- State `q` has an edge with letter `c` whose destination is in the set `S`. -/
def Into (d : DFA) (S : List state) (c : letter) (q : state) : Prop :=
  ∃ n : state, find_edge (d.edges q) c = some n ∧ n ∈ S

/-- The set `S` with the letter `c` tells `q1` from `q2`: exactly one of the two states
has an edge with letter `c` into `S`. -/
def Sep (d : DFA) (S : List state) (c : letter) (q1 q2 : state) : Prop :=
  (Into d S c q1 ∧ ¬ Into d S c q2) ∨ (¬ Into d S c q1 ∧ Into d S c q2)

/-- The stability invariant of the refinement loop. While the loop treats the set `a`
taken from the worklist, with the letters `pend` still to come, the current letter `c`
and the blocks `ys` still to visit for `c`: whenever a block of `p` tells two states of
one block apart, so does a set still to be used, which is a set of `w`, or `a` with a
letter of `pend`, or `a` with `c` when the block of the two states is in `ys`. -/
def StabInv (d : DFA) (p w : List (List state)) (a : List state) (pend : List letter)
    (c : letter) (ys : List (List state)) : Prop :=
  ∀ Y : List state, Y ∈ p → ∀ q1 : state, q1 ∈ Y → ∀ q2 : state, q2 ∈ Y →
    ∀ (c0 : letter) (B : List state), B ∈ p → Into d B c0 q1 → ¬ Into d B c0 q2 →
      (∃ S : List state, S ∈ w ∧ Sep d S c0 q1 q2) ∨
      (c0 ∈ pend ∧ Sep d a c0 q1 q2) ∨
      (c0 = c ∧ Y ∈ ys ∧ Sep d a c q1 q2)

/-- The calls of `add_edge` that the innermost loop of the construction of the result
makes for one edge list, in order. -/
def edge_calls (valid : List state) (partitions : List (state × Nat)) (index : Nat) :
    List Edge → List Op
  | [] => []
  | e :: es =>
      if e.next ∈ valid then
        Op.add_edge index ((mapFind partitions e.next).getD 0) e.transition ::
          edge_calls valid partitions index es
      else edge_calls valid partitions index es

/-- The calls of the mutators that the construction of the result makes for the state
`x` of the block numbered `index`, in order. -/
def state_calls (d : DFA) (valid : List state) (partitions : List (state × Nat))
    (index : Nat) (x : state) : List Op :=
  (if x ∈ d.final then [Op.set_final index] else []) ++
  (if x = d.start then [Op.set_initial index] else []) ++
  (match mapFind d.graph x with
   | none => []
   | some vec => edge_calls valid partitions index vec)

/-- The calls of the mutators that the construction of the result makes, in order. -/
def block_calls (d : DFA) (valid : List state) (partitions : List (state × Nat)) :
    List (List state) → Nat → List Op
  | [], _ => []
  | s :: rest, index =>
      (s.map (state_calls d valid partitions index)).flatten ++
        block_calls d valid partitions rest (index + 1)

/-- The pairs (source state, letter) of the calls of `add_edge` in a sequence of calls,
in order. -/
def call_keys : List Op → List (state × letter)
  | [] => []
  | Op.add_edge a _ s :: rest => (a, s) :: call_keys rest
  | Op.set_initial _ :: rest => call_keys rest
  | Op.set_final _ :: rest => call_keys rest

/-- The map `transposed` is exactly the transpose of `graph`: `a` is a recorded
predecessor of `b` exactly when there is an edge from `a` to `b`. -/
def Transposed (d : DFA) : Prop :=
  ∀ a b : state, a ∈ d.preds b ↔ Step d a b

end DFA

/-! # Properties -/

/-! ## Facts about the ordered containers -/

theorem mem_setInsert (s : List Nat) (x q : Nat) : q ∈ setInsert s x ↔ q = x ∨ q ∈ s := by
  induction s with
  | nil => simp [setInsert]
  | cons y ys ih =>
    simp only [setInsert]
    split_ifs with h1 h2
    · simp
    · subst h2; simp
    · simp [ih]; tauto

theorem mem_foldl_setInsert (l acc : List Nat) (q : Nat) :
    q ∈ l.foldl setInsert acc ↔ q ∈ acc ∨ q ∈ l := by
  induction l generalizing acc with
  | nil => simp
  | cons y ys ih => simp [ih, mem_setInsert]; tauto

theorem mapFind_mapSet {α : Type} (m : List (state × α)) (k : state) (v : α) (q : state) :
    mapFind (mapSet m k v) q = if q = k then some v else mapFind m q := by
  induction m with
  | nil => simp [mapSet, mapFind]
  | cons kv rest ih =>
    obtain ⟨k1, v1⟩ := kv
    simp only [mapSet]
    split_ifs with h1 h2 h3 h4 h5 <;> simp_all [mapFind]

/-! ## The graph store -/

namespace DFA

theorem overwrite_eq_none (vec : List Edge) (b : state) (s : letter) :
    overwrite vec b s = none ↔ s ∉ letters_of vec := by
  induction vec with
  | nil => simp [overwrite, letters_of]
  | cons e es ih =>
    simp only [overwrite, letters_of, List.map_cons, List.mem_cons, not_or]
    split_ifs with h
    · simp [h]
    · simp only [Option.map_eq_none', ih, letters_of]
      constructor
      · intro h2; exact ⟨fun h3 => h h3.symm, h2⟩
      · intro h2; exact h2.2

theorem letters_of_overwrite (vec vec2 : List Edge) (b : state) (s : letter)
    (h : overwrite vec b s = some vec2) : letters_of vec2 = letters_of vec := by
  induction vec generalizing vec2 with
  | nil => simp [overwrite] at h
  | cons e es ih =>
    simp only [overwrite] at h
    split_ifs at h with h1
    · cases h; simp [letters_of]
    · cases h2 : overwrite es b s with
      | none => simp [h2] at h
      | some r =>
        simp [h2] at h
        subst h
        simp [letters_of] at ih ⊢
        exact ih r h2

theorem filter_overwrite (vec vec2 : List Edge) (b : state) (s : letter)
    (hnd : (letters_of vec).Nodup) (h : overwrite vec b s = some vec2) :
    vec2.filter (fun e => decide (e.transition = s)) = [{ next := b, transition := s }] := by
  induction vec generalizing vec2 with
  | nil => simp [overwrite] at h
  | cons e es ih =>
    simp only [letters_of, List.map_cons, List.nodup_cons] at hnd
    simp only [overwrite] at h
    split_ifs at h with h1
    · cases h
      have hes : es.filter (fun e => decide (e.transition = s)) = [] := by
        rw [List.filter_eq_nil_iff]
        intro x hx
        simp only [decide_eq_true_eq]
        intro hxs
        apply hnd.1
        rw [h1, ← hxs]
        exact List.mem_map_of_mem _ hx
      simp [h1, hes]
    · cases h2 : overwrite es b s with
      | none => simp [h2] at h
      | some r =>
        simp [h2] at h
        subst h
        simp [h1, ih r hnd.2 h2]

theorem edges_add_edge (d : DFA) (a b : state) (s : letter) (q : state) :
    (d.add_edge a b s).edges q =
      if q = a then
        (match overwrite (d.edges a) b s with
         | some vec => vec
         | none => d.edges a ++ [{ next := b, transition := s }])
      else d.edges q := by
  unfold add_edge
  cases h : overwrite (d.edges a) b s with
  | none => simp only [edges, mapFind_mapSet]; split_ifs <;> simp
  | some vec => simp only [edges, mapFind_mapSet]; split_ifs <;> simp

theorem deterministic_add_edge (d : DFA) (a b : state) (s : letter)
    (h : d.Deterministic) : (d.add_edge a b s).Deterministic := by
  intro q
  rw [edges_add_edge]
  split_ifs with hq
  · cases h2 : overwrite (d.edges a) b s with
    | some vec =>
      simp only []
      rw [letters_of_overwrite _ _ _ _ h2]
      exact h a
    | none =>
      simp only []
      have hs := (overwrite_eq_none _ _ _).1 h2
      simp only [letters_of, List.map_append, List.map_cons, List.map_nil] at hs ⊢
      rw [List.nodup_append]
      refine ⟨h a, by simp, ?_⟩
      intro x hx1 hx2
      simp only [List.mem_singleton] at hx2
      subst hx2
      exact hs hx1
  · exact h q

theorem deterministic_empty (s0 : state) : (empty s0).Deterministic := by
  intro a
  simp [empty, edges, mapFind, letters_of]

theorem deterministic_apply_op (d : DFA) (op : Op) (h : d.Deterministic) :
    (apply_op d op).Deterministic := by
  cases op with
  | add_edge a b s => exact deterministic_add_edge d a b s h
  | set_initial q => exact h
  | set_final q => exact h

theorem deterministic_foldl (ops : List Op) (d : DFA) (h : d.Deterministic) :
    (ops.foldl apply_op d).Deterministic := by
  induction ops generalizing d with
  | nil => exact h
  | cons op rest ih => exact ih _ (deterministic_apply_op d op h)

theorem deterministic_build (s0 : state) (ops : List Op) : (build s0 ops).Deterministic :=
  deterministic_foldl ops _ (deterministic_empty s0)

theorem filter_length_le_one_of_nodup (vec : List Edge) (c : letter)
    (h : (letters_of vec).Nodup) :
    (vec.filter (fun e => decide (e.transition = c))).length ≤ 1 := by
  induction vec with
  | nil => simp
  | cons e es ih =>
    simp only [letters_of, List.map_cons, List.nodup_cons] at h
    by_cases hc : e.transition = c
    · have hes : es.filter (fun e => decide (e.transition = c)) = [] := by
        rw [List.filter_eq_nil_iff]
        intro x hx
        simp only [decide_eq_true_eq]
        intro hxs
        apply h.1
        rw [hc, ← hxs]
        exact List.mem_map_of_mem _ hx
      simp [hc, hes]
    · simp [hc]
      exact ih h.2

/-- Claim C3. After any sequence of calls of the mutators on a default-constructed
automaton, every edge list `graph[a]` holds at most one edge for each letter `c`; and
calling `add_edge(a, b1, c)` then `add_edge(a, b2, c)` on such an automaton leaves exactly
one edge with letter `c` in `graph[a]`, whose destination is `b2`. -/
theorem add_edge_deterministic (s0 : state) (ops : List Op) (a : state) (c : letter) :
    (((build s0 ops).edges a).filter (fun e => decide (e.transition = c))).length ≤ 1 ∧
    ∀ b1 b2 : state,
      ((((build s0 ops).add_edge a b1 c).add_edge a b2 c).edges a).filter
          (fun e => decide (e.transition = c)) = [{ next := b2, transition := c }] := by
  refine ⟨filter_length_le_one_of_nodup _ _ (deterministic_build s0 ops a), ?_⟩
  intro b1 b2
  have hd1 : ((build s0 ops).add_edge a b1 c).Deterministic :=
    deterministic_add_edge _ _ _ _ (deterministic_build s0 ops)
  have hmem : c ∈ letters_of (((build s0 ops).add_edge a b1 c).edges a) := by
    rw [edges_add_edge, if_pos rfl]
    cases h2 : overwrite ((build s0 ops).edges a) b1 c with
    | some vec =>
      simp only []
      rw [letters_of_overwrite _ _ _ _ h2]
      by_contra hc
      rw [(overwrite_eq_none _ b1 _).2 hc] at h2
      cases h2
    | none => simp [letters_of]
  rw [edges_add_edge, if_pos rfl]
  cases h3 : overwrite (((build s0 ops).add_edge a b1 c).edges a) b2 c with
  | none => exact absurd hmem ((overwrite_eq_none _ _ _).1 h3)
  | some vec => exact filter_overwrite _ _ _ _ (hd1 a) h3

/-! ## The simulator -/

theorem find_edge_some (vec : List Edge) (x : letter) (n : state)
    (h : find_edge vec x = some n) : ∃ e : Edge, e ∈ vec ∧ e.transition = x ∧ e.next = n := by
  induction vec with
  | nil => simp [find_edge] at h
  | cons e es ih =>
    simp only [find_edge] at h
    split_ifs at h with h1
    · cases h; exact ⟨e, by simp, h1, rfl⟩
    · obtain ⟨e2, he2, h2⟩ := ih h
      exact ⟨e2, by simp [he2], h2⟩

theorem find_edge_of_mem (vec : List Edge) (e : Edge) (hnd : (letters_of vec).Nodup)
    (he : e ∈ vec) : find_edge vec e.transition = some e.next := by
  induction vec with
  | nil => simp at he
  | cons e1 es ih =>
    simp only [letters_of, List.map_cons, List.nodup_cons] at hnd
    simp only [find_edge]
    rcases List.mem_cons.1 he with h1 | h1
    · subst h1; simp
    · have hne : e1.transition ≠ e.transition := by
        intro heq
        apply hnd.1
        rw [heq]
        exact List.mem_map_of_mem _ h1
      rw [if_neg hne]
      exact ih hnd.2 h1

theorem find_edge_none (vec : List Edge) (x : letter) (h : find_edge vec x = none) :
    ∀ e : Edge, e ∈ vec → e.transition ≠ x := by
  induction vec with
  | nil => simp
  | cons e1 es ih =>
    simp only [find_edge] at h
    split_ifs at h with h1
    intro e he
    rcases List.mem_cons.1 he with h2 | h2
    · subst h2; exact h1
    · exact ih h e h2

theorem valid_from_iff (d : DFA) (hd : d.Deterministic) (w : List letter) (q : state) :
    valid_from d q w = true ↔ ∃ q2 : state, Run d q w q2 ∧ q2 ∈ d.final := by
  induction w generalizing q with
  | nil =>
    simp only [valid_from, decide_eq_true_eq]
    constructor
    · intro h; exact ⟨q, Run.done q, h⟩
    · rintro ⟨q2, hr, hf⟩
      cases hr
      exact hf
  | cons x w ih =>
    have hdq := hd q
    simp only [valid_from]
    cases hg : mapFind d.graph q with
    | none =>
      simp only [Bool.false_eq_true, false_iff]
      rintro ⟨q2, hr, -⟩
      cases hr with
      | step e he _ _ => simp [edges, hg] at he
    | some vec =>
      have hvec : d.edges q = vec := by simp [edges, hg]
      rw [hvec] at hdq
      simp only []
      cases hf : find_edge vec x with
      | none =>
        simp only [Bool.false_eq_true, false_iff]
        rintro ⟨q2, hr, -⟩
        cases hr with
        | step e he hx _ =>
          rw [hvec] at he
          exact find_edge_none vec x hf e he hx
      | some nxt =>
        simp only []
        rw [ih nxt]
        obtain ⟨e, he, hx, hn⟩ := find_edge_some vec x nxt hf
        constructor
        · rintro ⟨q2, hr, hfin⟩
          refine ⟨q2, Run.step e (by rw [hvec]; exact he) hx (by rw [hn]; exact hr), hfin⟩
        · rintro ⟨q2, hr, hfin⟩
          cases hr with
          | step e2 he2 hx2 hr2 =>
            rw [hvec] at he2
            have h1 := find_edge_of_mem vec e2 hdq he2
            rw [hx2, hf] at h1
            cases h1
            exact ⟨q2, hr2, hfin⟩

theorem run_append_left (d : DFA) (u v : List letter) (q q2 : state)
    (h : Run d q (u ++ v) q2) : ∃ qm : state, Run d q u qm := by
  induction u generalizing q with
  | nil => exact ⟨q, Run.done q⟩
  | cons x u ih =>
    cases h with
    | step e he hx hr =>
      obtain ⟨qm, hm⟩ := ih _ hr
      exact ⟨qm, Run.step e he hx hm⟩

/-- Claim C4. On an automaton built by calls of the mutators, `DFA::valid` agrees with the
reference definition of acceptance: it answers true exactly when the word has a run from
`start`, through a matching edge for every letter, that ends in a final state. The empty
word is accepted exactly when `start` is final, and when a word has no run from `start`
every extension of it is rejected. -/
theorem valid_refines_reference (s0 : state) (ops : List Op) (word : List letter) :
    ((build s0 ops).valid word = true ↔ (build s0 ops).Accepts word) ∧
    ((build s0 ops).valid [] = true ↔ (build s0 ops).start ∈ (build s0 ops).final) ∧
    ((¬ ∃ q : state, Run (build s0 ops) (build s0 ops).start word q) →
      ∀ ext : List letter, (build s0 ops).valid (word ++ ext) = false) := by
  have hd := deterministic_build s0 ops
  refine ⟨valid_from_iff _ hd word _, by simp [valid, valid_from], ?_⟩
  intro hno ext
  by_contra hv
  rw [Bool.not_eq_false] at hv
  obtain ⟨q2, hr, -⟩ := (valid_from_iff _ hd (word ++ ext) _).1 hv
  exact hno (run_append_left _ _ _ _ _ hr)

/-- Claim C4 at a concrete automaton: with the single edge `0 -a-> 1`, start `0` and final
state `1`, the word `b` has no run, so every word that begins with `b` is rejected. -/
theorem valid_refines_reference_witness :
    (¬ ∃ q : state,
        Run (build 0 [Op.add_edge 0 1 97, Op.set_initial 0, Op.set_final 1])
          (build 0 [Op.add_edge 0 1 97, Op.set_initial 0, Op.set_final 1]).start [98] q) ∧
    ∀ ext : List letter,
      (build 0 [Op.add_edge 0 1 97, Op.set_initial 0, Op.set_final 1]).valid ([98] ++ ext) =
        false := by
  have hno : ¬ ∃ q : state,
      Run (build 0 [Op.add_edge 0 1 97, Op.set_initial 0, Op.set_final 1])
        (build 0 [Op.add_edge 0 1 97, Op.set_initial 0, Op.set_final 1]).start [98] q := by
    rintro ⟨q, hr⟩
    cases hr with
    | step e he hx _ =>
      have hedges : (build 0 [Op.add_edge 0 1 97, Op.set_initial 0, Op.set_final 1]).edges
          (build 0 [Op.add_edge 0 1 97, Op.set_initial 0, Op.set_final 1]).start =
          [{ next := 1, transition := 97 }] := by decide
      rw [hedges] at he
      simp only [List.mem_singleton] at he
      subst he
      simp at hx
  exact ⟨hno, (valid_refines_reference 0 _ [98]).2.2 hno⟩

/-! ## The breadth-first searches -/

theorem toFinset_setInsert (r : List Nat) (n : Nat) :
    (setInsert r n).toFinset = insert n r.toFinset := by
  ext q
  simp [mem_setInsert]

theorem visit_mem_reachable (vec c r : List state) (q : state) :
    q ∈ (visit vec c r).2 ↔ q ∈ r ∨ q ∈ vec := by
  induction vec generalizing c r with
  | nil => simp [visit]
  | cons n ns ih =>
    simp only [visit]
    split_ifs with h
    · rw [ih]
      constructor
      · rintro (h1 | h1)
        · exact Or.inl h1
        · exact Or.inr (by simp [h1])
      · rintro (h1 | h1)
        · exact Or.inl h1
        · rcases List.mem_cons.1 h1 with h2 | h2
          · subst h2; exact Or.inl h
          · exact Or.inr h2
    · rw [ih, mem_setInsert]
      simp only [List.mem_cons]
      tauto

theorem visit_mem_current (vec c r : List state) (q : state) :
    q ∈ (visit vec c r).1 ↔ q ∈ c ∨ (q ∈ vec ∧ q ∉ r) := by
  induction vec generalizing c r with
  | nil => simp [visit]
  | cons n ns ih =>
    simp only [visit]
    split_ifs with h
    · rw [ih]
      simp only [List.mem_cons]
      constructor
      · rintro (h1 | ⟨h1, h2⟩)
        · exact Or.inl h1
        · exact Or.inr ⟨Or.inr h1, h2⟩
      · rintro (h1 | ⟨h1 | h1, h2⟩)
        · exact Or.inl h1
        · subst h1; exact absurd h h2
        · exact Or.inr ⟨h1, h2⟩
    · rw [ih, mem_setInsert]
      simp only [List.mem_append, List.mem_singleton, List.mem_cons]
      by_cases hq : q = n
      · subst hq; simp [h]
      · simp [hq]

theorem visit_measure (U vec c r : List state) (hvec : ∀ n, n ∈ vec → n ∈ U) :
    (visit vec c r).1.length + (U.toFinset \ (visit vec c r).2.toFinset).card ≤
      c.length + (U.toFinset \ r.toFinset).card := by
  induction vec generalizing c r with
  | nil => simp [visit]
  | cons n ns ih =>
    have hns : ∀ m, m ∈ ns → m ∈ U := fun m hm => hvec m (by simp [hm])
    simp only [visit]
    split_ifs with h
    · exact ih c r hns
    · refine le_trans (ih _ _ hns) ?_
      rw [toFinset_setInsert, Finset.sdiff_insert]
      have hmem : n ∈ U.toFinset \ r.toFinset := by
        simp [h, hvec n (by simp)]
      have := Finset.card_erase_add_one hmem
      simp only [List.length_append, List.length_singleton]
      omega

theorem bfs_spec (nbrs : state → Option (List state)) (U : List state)
    (hU : ∀ a b, Nbr nbrs a b → b ∈ U) :
    ∀ (fuel : Nat) (c r : List state),
      c.length + (U.toFinset \ r.toFinset).card ≤ fuel →
      ∃ res, bfs nbrs fuel c r = some res ∧
        (∀ q, q ∈ r → q ∈ res) ∧
        (∀ q, q ∈ res → q ∈ r ∨ ∃ p, p ∈ c ∧ Relation.ReflTransGen (Nbr nbrs) p q) ∧
        ((∀ q, q ∈ r → q ∈ c ∨ ∀ n, Nbr nbrs q n → n ∈ r) →
          ∀ q, q ∈ res → ∀ n, Nbr nbrs q n → n ∈ res) := by
  intro fuel
  induction fuel with
  | zero =>
    intro c r h
    have hc : c = [] := by
      cases c with
      | nil => rfl
      | cons a l => simp at h
    subst hc
    refine ⟨r, by simp [bfs], fun q h => h, fun q h => Or.inl h, ?_⟩
    intro hinv q hq n hn
    rcases hinv q hq with h1 | h1
    · simp at h1
    · exact h1 n hn
  | succ fuel ih =>
    intro c r h
    cases c with
    | nil =>
      refine ⟨r, by simp [bfs], fun q h => h, fun q h => Or.inl h, ?_⟩
      intro hinv q hq n hn
      rcases hinv q hq with h1 | h1
      · simp at h1
      · exact h1 n hn
    | cons here rest =>
      simp only [List.length_cons] at h
      cases hn : nbrs here with
      | none =>
        have h2 : rest.length + (U.toFinset \ r.toFinset).card ≤ fuel := by omega
        obtain ⟨res, hres, hsub, hsound, hclosed⟩ := ih rest r h2
        refine ⟨res, by simp [bfs, hn, hres], hsub, ?_, ?_⟩
        · intro q hq
          rcases hsound q hq with h3 | ⟨p, hp, hpq⟩
          · exact Or.inl h3
          · exact Or.inr ⟨p, by simp [hp], hpq⟩
        · intro hinv
          apply hclosed
          intro q hq
          rcases hinv q hq with h3 | h3
          · rcases List.mem_cons.1 h3 with h4 | h4
            · right
              intro n hnn
              subst h4
              obtain ⟨vec, hv, -⟩ := hnn
              rw [hn] at hv
              cases hv
            · exact Or.inl h4
          · exact Or.inr h3
      | some vec =>
        have hvec : ∀ n, n ∈ vec → n ∈ U := fun n hnv => hU here n ⟨vec, hn, hnv⟩
        have h2 : (visit vec rest r).1.length +
            (U.toFinset \ (visit vec rest r).2.toFinset).card ≤ fuel := by
          have := visit_measure U vec rest r hvec
          omega
        obtain ⟨res, hres, hsub, hsound, hclosed⟩ := ih _ _ h2
        refine ⟨res, by simp [bfs, hn, hres], ?_, ?_, ?_⟩
        · intro q hq
          exact hsub q ((visit_mem_reachable vec rest r q).2 (Or.inl hq))
        · intro q hq
          rcases hsound q hq with h3 | ⟨p, hp, hpq⟩
          · rcases (visit_mem_reachable vec rest r q).1 h3 with h4 | h4
            · exact Or.inl h4
            · exact Or.inr ⟨here, by simp,
                Relation.ReflTransGen.single ⟨vec, hn, h4⟩⟩
          · rcases (visit_mem_current vec rest r p).1 hp with h4 | ⟨h4, -⟩
            · exact Or.inr ⟨p, by simp [h4], hpq⟩
            · exact Or.inr ⟨here, by simp,
                Relation.ReflTransGen.head ⟨vec, hn, h4⟩ hpq⟩
        · intro hinv
          apply hclosed
          intro q hq
          rcases (visit_mem_reachable vec rest r q).1 hq with h3 | h3
          · rcases hinv q h3 with h4 | h4
            · rcases List.mem_cons.1 h4 with h5 | h5
              · right
                intro n hnn
                subst h5
                obtain ⟨vec2, hv, hmem⟩ := hnn
                rw [hn] at hv
                cases hv
                exact (visit_mem_reachable vec rest r n).2 (Or.inr hmem)
              · exact Or.inl ((visit_mem_current vec rest r q).2 (Or.inl h5))
            · right
              intro n hnn
              exact (visit_mem_reachable vec rest r n).2 (Or.inl (h4 n hnn))
          · by_cases hqr : q ∈ r
            · rcases hinv q hqr with h4 | h4
              · rcases List.mem_cons.1 h4 with h5 | h5
                · right
                  intro n hnn
                  subst h5
                  obtain ⟨vec2, hv, hmem⟩ := hnn
                  rw [hn] at hv
                  cases hv
                  exact (visit_mem_reachable vec rest r n).2 (Or.inr hmem)
                · exact Or.inl ((visit_mem_current vec rest r q).2 (Or.inl h5))
              · right
                intro n hnn
                exact (visit_mem_reachable vec rest r n).2 (Or.inl (h4 n hnn))
            · exact Or.inl ((visit_mem_current vec rest r q).2 (Or.inr ⟨h3, hqr⟩))

theorem mem_of_mapFind {α : Type} (m : List (state × α)) (k : state) (v : α)
    (h : mapFind m k = some v) : (k, v) ∈ m := by
  induction m with
  | nil => simp [mapFind] at h
  | cons kv rest ih =>
    obtain ⟨k1, v1⟩ := kv
    simp only [mapFind] at h
    split_ifs at h with h1
    · cases h; subst h1; simp
    · simp [ih h]

theorem nbr_graph_iff (d : DFA) (a b : state) :
    Nbr (fun here => (mapFind d.graph here).map (fun vec => vec.map (fun e => e.next))) a b ↔
      Step d a b := by
  cases h : mapFind d.graph a with
  | none => simp [Nbr, Step, edges, h]
  | some vec => simp [Nbr, Step, edges, h]

theorem step_mem_all_nexts (d : DFA) (a b : state) (h : Step d a b) : b ∈ d.all_nexts := by
  obtain ⟨e, he, hb⟩ := h
  unfold edges at he
  cases hg : mapFind d.graph a with
  | none => simp [hg] at he
  | some vec =>
    simp only [hg, Option.getD_some] at he
    have hm := mem_of_mapFind _ _ _ hg
    simp only [all_nexts, List.mem_flatten, List.mem_map]
    exact ⟨vec.map (fun e => e.next), ⟨(a, vec), hm, rfl⟩, List.mem_map.2 ⟨e, he, hb⟩⟩

theorem path_eq_nbr (d : DFA) :
    Relation.ReflTransGen
      (Nbr (fun here => (mapFind d.graph here).map (fun vec => vec.map (fun e => e.next)))) =
      Path d := by
  have h : Nbr (fun here => (mapFind d.graph here).map (fun vec => vec.map (fun e => e.next)))
      = Step d := by
    funext a b
    exact propext (nbr_graph_iff d a b)
  unfold Path
  rw [h]

/-- Claim C6. `reachable_states` returns, for every automaton (in particular for every one
built by calls of the mutators), exactly the states joined to `start` by a path of zero or
more live forward edges; `start` itself is always returned. -/
theorem reachable_states_exact (d : DFA) :
    ∃ r : List state, d.reachable_states = some r ∧
      (∀ q : state, q ∈ r ↔ Path d d.start q) ∧ d.start ∈ r := by
  have hU : ∀ a b,
      Nbr (fun here => (mapFind d.graph here).map (fun vec => vec.map (fun e => e.next))) a b →
        b ∈ d.all_nexts :=
    fun a b h => step_mem_all_nexts d a b ((nbr_graph_iff d a b).1 h)
  have hfuel : [d.start].length + (d.all_nexts.toFinset \ [d.start].toFinset).card ≤
      d.all_nexts.length + 2 := by
    have h1 : (d.all_nexts.toFinset \ [d.start].toFinset).card ≤ d.all_nexts.toFinset.card :=
      Finset.card_le_card Finset.sdiff_subset
    have h2 := List.toFinset_card_le d.all_nexts
    simp only [List.length_singleton]
    omega
  obtain ⟨res, hres, hsub, hsound, hclosed⟩ :=
    bfs_spec _ d.all_nexts hU _ [d.start] [d.start] hfuel
  have hstart : d.start ∈ res := hsub _ (by simp)
  rw [path_eq_nbr] at hsound
  refine ⟨res, hres, ?_, hstart⟩
  intro q
  constructor
  · intro hq
    rcases hsound q hq with h1 | ⟨p, hp, hpq⟩
    · simp only [List.mem_singleton] at h1
      subst h1
      exact Relation.ReflTransGen.refl
    · simp only [List.mem_singleton] at hp
      subst hp
      exact hpq
  · intro hq
    have hcl := hclosed (by
      intro q1 hq1
      left
      exact hq1)
    induction hq with
    | refl => exact hstart
    | tail _ hstep ih => exact hcl _ ih _ ((nbr_graph_iff d _ _).2 hstep)

theorem nbr_mem_all_preds (d : DFA) (a b : state)
    (h : Nbr (fun here => mapFind d.transposed here) a b) : b ∈ d.all_preds := by
  obtain ⟨vec, hv, hb⟩ := h
  have hm := mem_of_mapFind _ _ _ hv
  simp only [all_preds, List.mem_flatten, List.mem_map]
  exact ⟨vec, ⟨(a, vec), hm, rfl⟩, hb⟩

/-- What `alive_states` computes on every automaton: the search ends within its fuel and
returns the states joined to a final state by a chain of recorded predecessors. -/
theorem alive_states_spec (d : DFA) :
    ∃ r : List state, d.alive_states = some r ∧
      ∀ q : state, q ∈ r ↔
        ∃ f : state, f ∈ d.final ∧
          Relation.ReflTransGen (Nbr (fun here => mapFind d.transposed here)) f q := by
  have hfuel : d.final.length +
      (d.all_preds.toFinset \ (d.final.foldl setInsert []).toFinset).card ≤
      d.final.length + d.all_preds.length + 1 := by
    have h1 : (d.all_preds.toFinset \ (d.final.foldl setInsert []).toFinset).card ≤
        d.all_preds.toFinset.card := Finset.card_le_card Finset.sdiff_subset
    have h2 := List.toFinset_card_le d.all_preds
    omega
  obtain ⟨res, hres, hsub, hsound, hclosed⟩ :=
    bfs_spec _ d.all_preds (nbr_mem_all_preds d) _ d.final (d.final.foldl setInsert []) hfuel
  refine ⟨res, hres, ?_⟩
  have hseed : ∀ q : state, q ∈ d.final.foldl setInsert [] ↔ q ∈ d.final := by
    intro q
    rw [mem_foldl_setInsert]
    simp
  intro q
  constructor
  · intro hq
    rcases hsound q hq with h1 | ⟨f, hf, hfq⟩
    · exact ⟨q, (hseed q).1 h1, Relation.ReflTransGen.refl⟩
    · exact ⟨f, hf, hfq⟩
  · rintro ⟨f, hf, hfq⟩
    have hcl := hclosed (fun q1 hq1 => Or.inl ((hseed q1).1 hq1))
    induction hfq with
    | refl => exact hsub _ ((hseed f).2 hf)
    | tail _ hstep ih => exact hcl _ ih _ hstep

/-! ## Automata with a redirected edge

`add_edge` returns from its scan as soon as it has redirected an existing edge, before the
lines that record the predecessor; `transposed` then misses the new edge and keeps the
old one. The statements below evaluate the methods on such automata. -/

theorem valid_from_no_final (d : DFA) (h : d.final = []) (q : state) (w : List letter) :
    valid_from d q w = false := by
  induction w generalizing q with
  | nil => simp [valid_from, h]
  | cons x w ih =>
    simp only [valid_from]
    cases mapFind d.graph q with
    | none => rfl
    | some vec =>
      simp only []
      cases find_edge vec x with
      | none => rfl
      | some nxt => exact ih nxt

/-- Claim C1, evaluated where it fails. The automaton `redirected_accepting` accepts the
word `aa`, and the automaton that `minimize` returns for it rejects `aa`: state `1`, whose
only edge was redirected to the final state, is missing from `alive_states`. -/
theorem minimize_loses_word_after_redirect (s0 : state) :
    (redirected_accepting s0).valid [97, 97] = true ∧
    (redirected_accepting s0).valid_states = some [0, 2] ∧
    ∃ r : DFA, minimize s0 (redirected_accepting s0) = some r ∧ r.valid [97, 97] = false := by
  have hb : redirected_accepting s0 =
      { graph := [(0, [{ next := 1, transition := 97 }, { next := 2, transition := 98 }]),
                  (1, [{ next := 2, transition := 97 }])],
        transposed := [(1, [0]), (2, [0]), (9, [1])], start := 0, final := [2] } := rfl
  rw [hb]
  have h1 : valid_states
      { graph := [(0, [{ next := 1, transition := 97 }, { next := 2, transition := 98 }]),
                  (1, [{ next := 2, transition := 97 }])],
        transposed := [(1, [0]), (2, [0]), (9, [1])], start := 0, final := [2] } =
      some [0, 2] := by decide
  have h2 : final_partition
      { graph := [(0, [{ next := 1, transition := 97 }, { next := 2, transition := 98 }]),
                  (1, [{ next := 2, transition := 97 }])],
        transposed := [(1, [0]), (2, [0]), (9, [1])], start := 0, final := [2] } =
      some [[0], [2]] := by decide
  refine ⟨by decide, h1, ?_⟩
  refine ⟨{ graph := [(0, [{ next := 1, transition := 98 }])], transposed := [(1, [0])],
            start := 0, final := [1] }, ?_, by decide⟩
  simp only [minimize, h1, h2]
  rfl

/-- Claim C2, evaluated where it fails. For the automaton `redirected_dead` the final
partition has the two non-empty blocks `{0}` and `{2}`, numbered `1` and `2` in the
result, and no word separates these two states of the result: every word is rejected
from both. -/
theorem minimize_keeps_equivalent_states (s0 : state) :
    (redirected_dead s0).final_partition = some [[], [0], [2]] ∧
    number_blocks [[], [0], [2]] 0 [] = [(0, 1), (2, 2)] ∧
    ∃ r : DFA, minimize s0 (redirected_dead s0) = some r ∧
      ∀ w : List letter, valid_from r 1 w = false ∧ valid_from r 2 w = false := by
  have hb : redirected_dead s0 =
      { graph := [(0, [{ next := 2, transition := 97 }]), (2, [{ next := 4, transition := 97 }])],
        transposed := [(1, [2]), (2, [0])], start := 0, final := [1] } := rfl
  rw [hb]
  have h1 : valid_states
      { graph := [(0, [{ next := 2, transition := 97 }]), (2, [{ next := 4, transition := 97 }])],
        transposed := [(1, [2]), (2, [0])], start := 0, final := [1] } =
      some [0, 2] := by decide
  have h2 : final_partition
      { graph := [(0, [{ next := 2, transition := 97 }]), (2, [{ next := 4, transition := 97 }])],
        transposed := [(1, [2]), (2, [0])], start := 0, final := [1] } =
      some [[], [0], [2]] := by decide
  refine ⟨h2, by decide, ?_⟩
  refine ⟨{ graph := [(1, [{ next := 2, transition := 97 }])], transposed := [(2, [1])],
            start := 1, final := [] }, ?_, ?_⟩
  · simp only [minimize, h1, h2]
    rfl
  · intro w
    exact ⟨valid_from_no_final _ rfl 1 w, valid_from_no_final _ rfl 2 w⟩

/-- Claim C5, evaluated where it fails. After `add_edge(0, 1, a)` the call
`add_edge(0, 2, a)` redirects the edge, and state `0` is not in the predecessor list of
the new destination `2`, which stays empty. -/
theorem add_edge_redirect_records_no_predecessor (s0 : state) :
    (((empty s0).add_edge 0 1 97).add_edge 0 2 97).edges 0 = [{ next := 2, transition := 97 }] ∧
    (((empty s0).add_edge 0 1 97).add_edge 0 2 97).preds 2 = [] ∧
    0 ∉ (((empty s0).add_edge 0 1 97).add_edge 0 2 97).preds 2 := by
  refine ⟨rfl, rfl, ?_⟩
  have h : (((empty s0).add_edge 0 1 97).add_edge 0 2 97).preds 2 = [] := rfl
  rw [h]
  simp

/-- Claim C7, evaluated where it fails. In the automaton `redirected_to_final` state `0`
has a live edge into the final state `2`, and `alive_states` returns `{2}` only. -/
theorem alive_states_misses_redirected_source (s0 : state) :
    (redirected_to_final s0).alive_states = some [2] ∧
    Path (redirected_to_final s0) 0 2 ∧ 2 ∈ (redirected_to_final s0).final ∧
    0 ∉ [2] := by
  refine ⟨rfl, ?_, ?_, by decide⟩
  · apply Relation.ReflTransGen.single
    exact ⟨{ next := 2, transition := 97 }, by
      have h : (redirected_to_final s0).edges 0 = [{ next := 2, transition := 97 }] := rfl
      rw [h]; simp, rfl⟩
  · have h : (redirected_to_final s0).final = [2] := rfl
    rw [h]; simp

/-- Claim C8, evaluated where it fails. In the automaton `redirected_from_final` the only
final state is `1`, `alive_states` returns `{0, 1}`, and no path of live edges leads from
state `0` to the final state: the only edge of `0` goes to `2`, which has no edge. -/
theorem alive_states_keeps_stale_predecessor (s0 : state) :
    (redirected_from_final s0).alive_states = some [0, 1] ∧
    (redirected_from_final s0).final = [1] ∧
    ¬ Path (redirected_from_final s0) 0 1 := by
  refine ⟨rfl, rfl, ?_⟩
  have hgraph : (redirected_from_final s0).graph = [(0, [{ next := 2, transition := 97 }])] :=
    rfl
  have hinv : ∀ q : state, Path (redirected_from_final s0) 0 q → q = 0 ∨ q = 2 := by
    intro q hq
    induction hq with
    | refl => exact Or.inl rfl
    | tail _ hstep ih =>
      obtain ⟨e, he, hn⟩ := hstep
      rcases ih with h | h
      · subst h
        simp only [edges, hgraph, mapFind] at he
        simp at he
        subst he
        exact Or.inr hn.symm
      · subst h
        simp only [edges, hgraph, mapFind] at he
        simp at he
  intro hp
  rcases hinv _ hp with h | h <;> simp at h

/-- Claim C9, evaluated where it fails. In the automaton `redirected_useful` state `1` is
not in `valid_states`, which is `{0, 2}`, yet the word `aa` is accepted before state `1`
is deleted and rejected after. -/
theorem deleting_invalid_state_changes_valid (s0 : state) :
    (redirected_useful s0).valid_states = some [0, 2] ∧ 1 ∉ [0, 2] ∧
    (redirected_useful s0).valid [97, 97] = true ∧
    (delete_state (redirected_useful s0) 1).valid [97, 97] = false := by
  have hb : redirected_useful s0 =
      { graph := [(0, [{ next := 1, transition := 97 }, { next := 2, transition := 98 }]),
                  (1, [{ next := 2, transition := 97 }])],
        transposed := [(1, [0]), (2, [0]), (9, [1])], start := 0, final := [2] } := rfl
  rw [hb]
  decide

/-- Claim C10, evaluated where it fails. For the automaton `redirected_twice_minimized`
the final partition of `minimize` has two non-empty blocks, and the final partition of
`minimize` applied to the result has none. -/
theorem minimize_twice_changes_block_count (s0 : state) :
    ∃ (p1 : List (List state)) (r : DFA) (p2 : List (List state)),
      (redirected_twice_minimized s0).final_partition = some p1 ∧
      minimize s0 (redirected_twice_minimized s0) = some r ∧
      r.final_partition = some p2 ∧
      block_count p1 = 2 ∧ block_count p2 = 0 := by
  have hb : redirected_twice_minimized s0 =
      { graph := [(0, [{ next := 2, transition := 97 }]), (2, [{ next := 4, transition := 97 }])],
        transposed := [(1, [2]), (2, [0])], start := 0, final := [1] } := rfl
  rw [hb]
  have h1 : valid_states
      { graph := [(0, [{ next := 2, transition := 97 }]), (2, [{ next := 4, transition := 97 }])],
        transposed := [(1, [2]), (2, [0])], start := 0, final := [1] } =
      some [0, 2] := by decide
  have h2 : final_partition
      { graph := [(0, [{ next := 2, transition := 97 }]), (2, [{ next := 4, transition := 97 }])],
        transposed := [(1, [2]), (2, [0])], start := 0, final := [1] } =
      some [[], [0], [2]] := by decide
  refine ⟨[[], [0], [2]],
    { graph := [(1, [{ next := 2, transition := 97 }])], transposed := [(2, [1])],
      start := 1, final := [] }, [[]], h2, ?_, by decide, by decide, by decide⟩
  simp only [minimize, h1, h2]
  rfl

/-! ## The frame of a redirecting `add_edge` -/

theorem overwrite_set (vec : List Edge) (b : state) (s : letter) (h : s ∈ letters_of vec) :
    ∃ i : Nat, ∃ e : Edge, vec[i]? = some e ∧ e.transition = s ∧
      (∀ j : Nat, j < i → ∀ e2 : Edge, vec[j]? = some e2 → e2.transition ≠ s) ∧
      overwrite vec b s = some (vec.set i { next := b, transition := s }) := by
  induction vec with
  | nil => simp [letters_of] at h
  | cons e es ih =>
    by_cases he : e.transition = s
    · refine ⟨0, e, by simp, he, by simp, ?_⟩
      simp [overwrite, he]
    · have hs : s ∈ letters_of es := by
        simp only [letters_of, List.map_cons, List.mem_cons] at h
        rcases h with h | h
        · exact absurd h.symm he
        · exact h
      obtain ⟨i, e1, hi, he1, hlt, hov⟩ := ih hs
      refine ⟨i + 1, e1, by simpa using hi, he1, ?_, ?_⟩
      · intro j hj e2 hj2
        cases j with
        | zero =>
          simp only [List.getElem?_cons_zero, Option.some.injEq] at hj2
          subst hj2
          exact he
        | succ j =>
          simp only [List.getElem?_cons_succ] at hj2
          exact hlt j (by omega) e2 hj2
      · simp [overwrite, he, hov]

/-- Claim C17. When `graph[a]` already holds an edge with letter `s`, the call
`add_edge(a, b, s)` replaces the destination of the first such edge and nothing else: the
edge list of `a` keeps its length and the order of its letters, every other key of
`graph` keeps its edge list, and `transposed`, `start` and `final` are unchanged. -/
theorem add_edge_redirect_frame (d : DFA) (a b : state) (s : letter)
    (h : s ∈ letters_of (d.edges a)) :
    (∃ i : Nat, ∃ e : Edge, (d.edges a)[i]? = some e ∧ e.transition = s ∧
      (∀ j : Nat, j < i → ∀ e2 : Edge, (d.edges a)[j]? = some e2 → e2.transition ≠ s) ∧
      (d.add_edge a b s).edges a = (d.edges a).set i { next := b, transition := s }) ∧
    ((d.add_edge a b s).edges a).length = (d.edges a).length ∧
    letters_of ((d.add_edge a b s).edges a) = letters_of (d.edges a) ∧
    (∀ q : state, q ≠ a → mapFind (d.add_edge a b s).graph q = mapFind d.graph q) ∧
    (d.add_edge a b s).transposed = d.transposed ∧
    (d.add_edge a b s).start = d.start ∧
    (d.add_edge a b s).final = d.final := by
  obtain ⟨i, e, hi, he, hlt, hov⟩ := overwrite_set (d.edges a) b s h
  have hedges : (d.add_edge a b s).edges a = (d.edges a).set i { next := b, transition := s } := by
    rw [edges_add_edge, if_pos rfl, hov]
  have hadd : d.add_edge a b s =
      { d with graph := mapSet d.graph a ((d.edges a).set i { next := b, transition := s }) } := by
    unfold add_edge
    rw [hov]
  refine ⟨⟨i, e, hi, he, hlt, hedges⟩, ?_, ?_, ?_, ?_, ?_, ?_⟩
  · rw [hedges, List.length_set]
  · rw [hedges]
    exact letters_of_overwrite _ _ _ _ hov
  · intro q hq
    rw [hadd]
    simp only [mapFind_mapSet, if_neg hq]
  · rw [hadd]
  · rw [hadd]
  · rw [hadd]

/-- Claim C17 at a concrete automaton: after `add_edge(0, 1, a)` the call
`add_edge(0, 2, a)` finds the letter `a` in `graph[0]`. -/
theorem add_edge_redirect_frame_witness :
    97 ∈ letters_of (((empty 0).add_edge 0 1 97).edges 0) ∧
    (((empty 0).add_edge 0 1 97).add_edge 0 2 97).transposed =
      ((empty 0).add_edge 0 1 97).transposed :=
  ⟨by decide, (add_edge_redirect_frame ((empty 0).add_edge 0 1 97) 0 2 97 (by decide)).2.2.2.2.1⟩

/-! ## The scenario of the spec -/

/-- Claim C12. For the automaton of the scenario, `valid_states` is `{0, 1, 2}`, the final
partition of `minimize` is `{0}`, `{1}`, `{2}` with no empty block, state `3` is in no
block, the blocks are numbered `0`, `1`, `2`, and the result has the three states `0`, `1`,
`2` with the edges of the source between them. -/
theorem minimize_scenario (s0 : state) :
    (scenario s0).valid_states = some [0, 1, 2] ∧
    (scenario s0).final_partition = some [[0], [1], [2]] ∧
    (∀ Y : List state, Y ∈ [[0], [1], [2]] → 3 ∉ Y) ∧
    number_blocks [[0], [1], [2]] 0 [] = [(0, 0), (1, 1), (2, 2)] ∧
    minimize s0 (scenario s0) = some
      { graph := [(0, [{ next := 1, transition := 97 }]),
                  (1, [{ next := 2, transition := 98 }]),
                  (2, [{ next := 2, transition := 97 }, { next := 2, transition := 98 }])],
        transposed := [(1, [0]), (2, [1, 2, 2])],
        start := 0, final := [2] } := by
  have hb : scenario s0 =
      { graph := [(0, [{ next := 1, transition := 97 }]),
                  (1, [{ next := 2, transition := 98 }]),
                  (2, [{ next := 2, transition := 97 }, { next := 2, transition := 98 }]),
                  (3, [{ next := 3, transition := 97 }])],
        transposed := [(1, [0]), (2, [1, 2, 2]), (3, [3])],
        start := 0, final := [2] } := rfl
  rw [hb]
  have h1 : valid_states
      { graph := [(0, [{ next := 1, transition := 97 }]),
                  (1, [{ next := 2, transition := 98 }]),
                  (2, [{ next := 2, transition := 97 }, { next := 2, transition := 98 }]),
                  (3, [{ next := 3, transition := 97 }])],
        transposed := [(1, [0]), (2, [1, 2, 2]), (3, [3])],
        start := 0, final := [2] } = some [0, 1, 2] := by decide
  have h2 : final_partition
      { graph := [(0, [{ next := 1, transition := 97 }]),
                  (1, [{ next := 2, transition := 98 }]),
                  (2, [{ next := 2, transition := 97 }, { next := 2, transition := 98 }]),
                  (3, [{ next := 3, transition := 97 }])],
        transposed := [(1, [0]), (2, [1, 2, 2]), (3, [3])],
        start := 0, final := [2] } = some [[0], [1], [2]] := by decide
  refine ⟨h1, h2, by decide, by decide, ?_⟩
  simp only [minimize, h1, h2]
  rfl

/-! ## Automata without a final state -/

theorem reachable_states_some (d : DFA) :
    ∃ r : List state, d.reachable_states = some r ∧
      (∀ q : state, q ∈ r ↔ Path d d.start q) := by
  have hU : ∀ a b,
      Nbr (fun here => (mapFind d.graph here).map (fun vec => vec.map (fun e => e.next))) a b →
        b ∈ d.all_nexts :=
    fun a b h => step_mem_all_nexts d a b ((nbr_graph_iff d a b).1 h)
  have hfuel : [d.start].length + (d.all_nexts.toFinset \ [d.start].toFinset).card ≤
      d.all_nexts.length + 2 := by
    have h1 : (d.all_nexts.toFinset \ [d.start].toFinset).card ≤ d.all_nexts.toFinset.card :=
      Finset.card_le_card Finset.sdiff_subset
    have h2 := List.toFinset_card_le d.all_nexts
    simp only [List.length_singleton]
    omega
  obtain ⟨res, hres, hsub, hsound, hclosed⟩ :=
    bfs_spec _ d.all_nexts hU _ [d.start] [d.start] hfuel
  rw [path_eq_nbr] at hsound
  refine ⟨res, hres, fun q => ⟨fun hq => ?_, fun hq => ?_⟩⟩
  · rcases hsound q hq with h1 | ⟨p, hp, hpq⟩
    · rw [List.mem_singleton.1 h1]
      exact Relation.ReflTransGen.refl
    · rw [List.mem_singleton.1 hp] at hpq
      exact hpq
  · have hcl := hclosed (fun q1 hq1 => Or.inl hq1)
    induction hq with
    | refl => exact hsub _ (by simp)
    | tail _ hstep ih => exact hcl _ ih _ ((nbr_graph_iff d _ _).2 hstep)

theorem intersection_nil_right (a : List Nat) : intersection a [] = [] := by
  simp [intersection]

theorem valid_states_no_final (d : DFA) (h : d.final = []) : d.valid_states = some [] := by
  obtain ⟨r, hr, -⟩ := reachable_states_some d
  have ha : d.alive_states = some [] := by
    simp [alive_states, h, bfs]
  simp [valid_states, ha, hr, intersection]

theorem refine_letter_trivial (d : DFA) (letters : List letter) :
    letters.foldl (refine_letter d [] []) ([[]], []) = ([[]], []) := by
  induction letters with
  | nil => rfl
  | cons c cs ih =>
    have h1 : refine_letter d [] [] ([[]], []) c = ([[]], []) := by
      simp [refine_letter, split_block, intersection]
    rw [List.foldl_cons, h1, ih]

theorem final_partition_no_final (d : DFA) (h : d.final = []) :
    d.final_partition = some [[]] := by
  have hi : initial_partition d [] = [[]] := by
    simp [initial_partition, intersection_nil_right, ssInsert, lexLt]
  simp only [final_partition, valid_states_no_final d h, hi, List.length_nil, Nat.zero_add]
  simp only [refine, refine_letter_trivial]

/-- Claim C11. When `final` is empty, `minimize` returns a result, the default-constructed
automaton: it has no final state and no edge, it rejects every word, and so does the
source. -/
theorem minimize_no_final (s0 : state) (d : DFA) (h : d.final = []) :
    minimize s0 d = some (empty s0) ∧
    (empty s0).final = [] ∧ (empty s0).graph = [] ∧
    ∀ w : List letter, (empty s0).valid w = false ∧ d.valid w = false := by
  refine ⟨?_, rfl, rfl, fun w => ⟨valid_from_no_final _ rfl _ w, valid_from_no_final d h _ w⟩⟩
  simp only [minimize, valid_states_no_final d h, final_partition_no_final d h]
  simp [emit_blocks, number_blocks]

/-- Claim C11 at a concrete automaton: start `0`, the edge `0 -a-> 1` and no final
state. -/
theorem minimize_no_final_witness :
    (build 5 [Op.add_edge 0 1 97, Op.set_initial 0]).final = [] ∧
    minimize 5 (build 5 [Op.add_edge 0 1 97, Op.set_initial 0]) = some (empty 5) :=
  ⟨rfl, (minimize_no_final 5 (build 5 [Op.add_edge 0 1 97, Op.set_initial 0]) rfl).1⟩

/-! ## Sets of blocks -/

theorem mem_intersection (a b : List Nat) (q : Nat) :
    q ∈ intersection a b ↔ q ∈ a ∧ q ∈ b := by
  simp [intersection]

theorem mem_difference (a b : List Nat) (q : Nat) :
    q ∈ difference a b ↔ q ∈ a ∧ q ∉ b := by
  simp [difference]

theorem mem_ssInsert (l : List (List Nat)) (s t : List Nat) :
    t ∈ ssInsert l s ↔ t = s ∨ t ∈ l := by
  induction l with
  | nil => simp [ssInsert]
  | cons u us ih =>
    simp only [ssInsert]
    split_ifs with h1 h2
    · simp
    · subst h2; simp
    · simp [ih]; tauto

theorem length_ssInsert_le (l : List (List Nat)) (s : List Nat) :
    (ssInsert l s).length ≤ l.length + 1 := by
  induction l with
  | nil => simp [ssInsert]
  | cons u us ih =>
    simp only [ssInsert]
    split_ifs with h1 h2
    · simp
    · simp
    · simp only [List.length_cons]; omega

theorem nodup_ssInsert (l : List (List Nat)) (s : List Nat) (hl : l.Nodup) (hs : s ∉ l) :
    (ssInsert l s).Nodup := by
  induction l with
  | nil => simp [ssInsert]
  | cons u us ih =>
    simp only [List.mem_cons, not_or] at hs
    simp only [List.nodup_cons] at hl
    simp only [ssInsert]
    split_ifs with h1 h2
    · simp only [List.nodup_cons, List.mem_cons, not_or]
      exact ⟨⟨hs.1, hs.2⟩, hl.1, hl.2⟩
    · exact absurd h2 hs.1
    · simp only [List.nodup_cons, mem_ssInsert, not_or]
      exact ⟨⟨fun h => hs.1 h.symm, hl.1⟩, ih hl.2 hs.2⟩

theorem mem_of_mem_ssErase (l : List (List Nat)) (s t : List Nat) (h : t ∈ ssErase l s) :
    t ∈ l := by
  induction l with
  | nil => simp [ssErase] at h
  | cons u us ih =>
    simp only [ssErase] at h
    split_ifs at h with h1
    · simp [h]
    · rcases List.mem_cons.1 h with h2 | h2
      · simp [h2]
      · simp [ih h2]

theorem mem_ssErase_of_ne (l : List (List Nat)) (s t : List Nat) (hne : t ≠ s) (h : t ∈ l) :
    t ∈ ssErase l s := by
  induction l with
  | nil => simp at h
  | cons u us ih =>
    simp only [ssErase]
    rcases List.mem_cons.1 h with h2 | h2
    · subst h2
      rw [if_neg (fun h3 => hne h3.symm)]
      simp
    · split_ifs with h1
      · exact h2
      · simp [ih h2]

theorem nodup_ssErase (l : List (List Nat)) (s : List Nat) (hl : l.Nodup) :
    (ssErase l s).Nodup := by
  induction l with
  | nil => simp [ssErase]
  | cons u us ih =>
    simp only [List.nodup_cons] at hl
    simp only [ssErase]
    split_ifs with h1
    · exact hl.2
    · simp only [List.nodup_cons]
      exact ⟨fun h => hl.1 (mem_of_mem_ssErase _ _ _ h), ih hl.2⟩

theorem not_mem_ssErase_self (l : List (List Nat)) (s : List Nat) (hl : l.Nodup) :
    s ∉ ssErase l s := by
  induction l with
  | nil => simp [ssErase]
  | cons u us ih =>
    simp only [List.nodup_cons] at hl
    simp only [ssErase]
    split_ifs with h1
    · subst h1; exact hl.1
    · simp only [List.mem_cons, not_or]
      exact ⟨h1, ih hl.2⟩

theorem mem_ssErase_iff (l : List (List Nat)) (s t : List Nat) (hl : l.Nodup) :
    t ∈ ssErase l s ↔ t ∈ l ∧ t ≠ s := by
  constructor
  · intro h
    refine ⟨mem_of_mem_ssErase _ _ _ h, ?_⟩
    intro hts
    subst hts
    exact not_mem_ssErase_self l t hl h
  · rintro ⟨h1, h2⟩
    exact mem_ssErase_of_ne _ _ _ h2 h1

theorem length_ssErase (l : List (List Nat)) (s : List Nat) (h : s ∈ l) :
    (ssErase l s).length + 1 = l.length := by
  induction l with
  | nil => simp at h
  | cons u us ih =>
    simp only [ssErase]
    split_ifs with h1
    · simp
    · rcases List.mem_cons.1 h with h2 | h2
      · exact absurd h2 h1
      · simp only [List.length_cons]
        have := ih h2
        omega

/-! ## One split of the refinement loop -/

theorem split_block_eq_self (x y : List state) (pw : List (List state) × List (List state))
    (h : intersection x y = [] ∨ difference y x = []) : split_block x pw y = pw := by
  unfold split_block
  rw [if_pos]
  rcases h with h | h
  · left; simp [h]
  · right; simp [h]

theorem split_block_fst (x y : List state) (p w : List (List state))
    (h1 : intersection x y ≠ []) (h2 : difference y x ≠ []) :
    (split_block x (p, w) y).1 =
      ssInsert (ssInsert (ssErase p y) (intersection x y)) (difference y x) := by
  unfold split_block
  rw [if_neg]
  simp only [List.isEmpty_iff, not_or]
  exact ⟨h1, h2⟩

theorem split_block_snd (x y : List state) (p w : List (List state))
    (h1 : intersection x y ≠ []) (h2 : difference y x ≠ []) :
    (split_block x (p, w) y).2 =
      if y ∈ w then
        ssInsert (ssInsert (ssErase w y) (intersection x y)) (difference y x)
      else if (intersection x y).length ≤ (difference y x).length then
        ssInsert w (intersection x y)
      else
        ssInsert w (difference y x) := by
  unfold split_block
  rw [if_neg]
  simp only [List.isEmpty_iff, not_or]
  exact ⟨h1, h2⟩

theorem halves_fresh (final valid : List state) (p w : List (List state)) (x y : List state)
    (hinv : PartitionInv final valid p w) (hy : y ∈ p)
    (h1 : intersection x y ≠ []) (h2 : difference y x ≠ []) :
    intersection x y ∉ p ∧ difference y x ∉ p ∧ intersection x y ≠ difference y x := by
  obtain ⟨a, ha⟩ := List.exists_mem_of_ne_nil _ h1
  obtain ⟨b, hb⟩ := List.exists_mem_of_ne_nil _ h2
  have ha2 := (mem_intersection x y a).1 ha
  have hb2 := (mem_difference y x b).1 hb
  refine ⟨?_, ?_, ?_⟩
  · intro hin
    have heq := hinv.disjoint _ hin _ hy a ha ha2.2
    rw [heq] at ha
    have := (mem_intersection x y b).1 (by rw [heq]; exact hb2.1)
    exact hb2.2 this.1
  · intro hin
    have heq := hinv.disjoint _ hin _ hy b hb hb2.1
    have := (mem_difference y x a).1 (by rw [heq]; exact ha2.2)
    exact this.2 ha2.1
  · intro heq
    rw [heq] at ha
    exact ((mem_difference y x a).1 ha).2 ha2.1

theorem mem_split_fst (final valid : List state) (p w : List (List state)) (x y : List state)
    (hinv : PartitionInv final valid p w)
    (h1 : intersection x y ≠ []) (h2 : difference y x ≠ []) (t : List state) :
    t ∈ (split_block x (p, w) y).1 ↔
      t = difference y x ∨ t = intersection x y ∨ (t ∈ p ∧ t ≠ y) := by
  rw [split_block_fst x y p w h1 h2, mem_ssInsert, mem_ssInsert, mem_ssErase_iff _ _ _ hinv.nodup_p]

theorem partitionInv_split (final valid : List state) (p w : List (List state))
    (x y : List state) (hinv : PartitionInv final valid p w) (hy : y ∈ p) :
    PartitionInv final valid (split_block x (p, w) y).1 (split_block x (p, w) y).2 := by
  by_cases h1 : intersection x y = []
  · rw [split_block_eq_self x y _ (Or.inl h1)]
    exact hinv
  by_cases h2 : difference y x = []
  · rw [split_block_eq_self x y _ (Or.inr h2)]
    exact hinv
  obtain ⟨hf1, hf2, hf3⟩ := halves_fresh final valid p w x y hinv hy h1 h2
  have hmem := mem_split_fst final valid p w x y hinv h1 h2
  have hsubI : ∀ q : state, q ∈ intersection x y → q ∈ y :=
    fun q hq => ((mem_intersection x y q).1 hq).2
  have hsubD : ∀ q : state, q ∈ difference y x → q ∈ y :=
    fun q hq => ((mem_difference y x q).1 hq).1
  have hpar : ∀ t : List state, t ∈ (split_block x (p, w) y).1 →
      ∃ Y : List state, Y ∈ p ∧ ∀ q : state, q ∈ t → q ∈ Y := by
    intro t ht
    rcases (hmem t).1 ht with h | h | h
    · exact ⟨y, hy, by rw [h]; exact hsubD⟩
    · exact ⟨y, hy, by rw [h]; exact hsubI⟩
    · exact ⟨t, h.1, fun q hq => hq⟩
  have hnd1 : (ssInsert (ssErase p y) (intersection x y)).Nodup :=
    nodup_ssInsert _ _ (nodup_ssErase _ _ hinv.nodup_p)
      (fun h => hf1 (mem_of_mem_ssErase _ _ _ h))
  constructor
  · rw [split_block_fst x y p w h1 h2]
    apply nodup_ssInsert _ _ hnd1
    rw [mem_ssInsert]
    rintro (h | h)
    · exact hf3 h.symm
    · exact hf2 (mem_of_mem_ssErase _ _ _ h)
  · rw [split_block_snd x y p w h1 h2]
    have hw1 : intersection x y ∉ w := fun h => hf1 (hinv.w_sub _ h)
    have hw2 : difference y x ∉ w := fun h => hf2 (hinv.w_sub _ h)
    split_ifs with hyw hle
    · apply nodup_ssInsert
      · exact nodup_ssInsert _ _ (nodup_ssErase _ _ hinv.nodup_w)
          (fun h => hw1 (mem_of_mem_ssErase _ _ _ h))
      · rw [mem_ssInsert]
        rintro (h | h)
        · exact hf3 h.symm
        · exact hw2 (mem_of_mem_ssErase _ _ _ h)
    · exact nodup_ssInsert _ _ hinv.nodup_w hw1
    · exact nodup_ssInsert _ _ hinv.nodup_w hw2
  · intro t ht
    rw [hmem]
    rw [split_block_snd x y p w h1 h2] at ht
    split_ifs at ht with hyw hle
    · rw [mem_ssInsert, mem_ssInsert, mem_ssErase_iff _ _ _ hinv.nodup_w] at ht
      rcases ht with h | h | h
      · exact Or.inl h
      · exact Or.inr (Or.inl h)
      · exact Or.inr (Or.inr ⟨hinv.w_sub _ h.1, h.2⟩)
    · rw [mem_ssInsert] at ht
      rcases ht with h | h
      · exact Or.inr (Or.inl h)
      · exact Or.inr (Or.inr ⟨hinv.w_sub _ h, fun e => hyw (e ▸ h)⟩)
    · rw [mem_ssInsert] at ht
      rcases ht with h | h
      · exact Or.inl h
      · exact Or.inr (Or.inr ⟨hinv.w_sub _ h, fun e => hyw (e ▸ h)⟩)
  · intro t ht q hq
    obtain ⟨Y, hY, hsub⟩ := hpar t ht
    exact hinv.within Y hY q (hsub q hq)
  · intro q hq
    obtain ⟨Y, hY, hqY⟩ := hinv.cover q hq
    by_cases hYy : Y = y
    · subst hYy
      by_cases hqx : q ∈ x
      · exact ⟨intersection x Y, (hmem _).2 (Or.inr (Or.inl rfl)),
          (mem_intersection x Y q).2 ⟨hqx, hqY⟩⟩
      · exact ⟨difference Y x, (hmem _).2 (Or.inl rfl),
          (mem_difference Y x q).2 ⟨hqY, hqx⟩⟩
    · exact ⟨Y, (hmem _).2 (Or.inr (Or.inr ⟨hY, hYy⟩)), hqY⟩
  · intro Y1 h1m Y2 h2m q hq1 hq2
    rcases (hmem Y1).1 h1m with a1 | a1 | a1 <;> rcases (hmem Y2).1 h2m with a2 | a2 | a2
    · rw [a1, a2]
    · rw [a1] at hq1; rw [a2] at hq2
      exact absurd ((mem_intersection x y q).1 hq2).1 ((mem_difference y x q).1 hq1).2
    · rw [a1] at hq1
      exact absurd (hinv.disjoint _ a2.1 _ hy q hq2 (hsubD q hq1)) a2.2
    · rw [a1] at hq1; rw [a2] at hq2
      exact absurd ((mem_intersection x y q).1 hq1).1 ((mem_difference y x q).1 hq2).2
    · rw [a1, a2]
    · rw [a1] at hq1
      exact absurd (hinv.disjoint _ a2.1 _ hy q hq2 (hsubI q hq1)) a2.2
    · rw [a2] at hq2
      exact absurd (hinv.disjoint _ a1.1 _ hy q hq1 (hsubD q hq2)) a1.2
    · rw [a2] at hq2
      exact absurd (hinv.disjoint _ a1.1 _ hy q hq1 (hsubI q hq2)) a1.2
    · exact hinv.disjoint _ a1.1 _ a2.1 q hq1 hq2
  · intro t ht
    obtain ⟨Y, hY, hsub⟩ := hpar t ht
    rcases hinv.homogeneous Y hY with h | h
    · exact Or.inl (fun q hq => h q (hsub q hq))
    · exact Or.inr (fun q hq => h q (hsub q hq))

/-! ## The refinement loop: termination and invariants -/

theorem perm_ssInsert (l : List (List Nat)) (s : List Nat) (hs : s ∉ l) :
    (ssInsert l s).Perm (s :: l) := by
  induction l with
  | nil => simp [ssInsert]
  | cons u us ih =>
    simp only [List.mem_cons, not_or] at hs
    simp only [ssInsert]
    split_ifs with h1 h2
    · exact List.Perm.refl _
    · exact absurd h2 hs.1
    · exact ((ih hs.2).cons u).trans (List.Perm.swap s u us)

theorem perm_ssErase (l : List (List Nat)) (s : List Nat) (hs : s ∈ l) :
    (s :: ssErase l s).Perm l := by
  induction l with
  | nil => simp at hs
  | cons u us ih =>
    simp only [ssErase]
    split_ifs with h1
    · rw [h1]
    · rcases List.mem_cons.1 hs with h2 | h2
      · exact absurd h2 h1
      · exact (List.Perm.swap u s _).trans ((ih h2).cons u)

theorem block_count_perm (l1 l2 : List (List state)) (h : l1.Perm l2) :
    block_count l1 = block_count l2 := by
  unfold block_count
  exact (h.filter _).length_eq

theorem block_count_cons (s : List state) (l : List (List state)) :
    block_count (s :: l) = (if s = [] then 0 else 1) + block_count l := by
  unfold block_count
  cases s with
  | nil => simp
  | cons a t => simp; omega

theorem block_count_le (final valid : List state) (p w : List (List state))
    (hinv : PartitionInv final valid p w) : block_count p ≤ valid.toFinset.card := by
  unfold block_count
  have hne : ∀ Y : List state, Y ∈ p.filter (fun s => !s.isEmpty) → Y.headD 0 ∈ Y := by
    intro Y hY
    cases Y with
    | nil => simp at hY
    | cons a t => simp
  have hnd : ((p.filter (fun s => !s.isEmpty)).map (fun Y => Y.headD 0)).Nodup := by
    apply List.Nodup.map_on _ (hinv.nodup_p.filter _)
    intro Y1 h1 Y2 h2 heq
    have m1 := hne Y1 h1
    have m2 := hne Y2 h2
    simp only at heq
    rw [heq] at m1
    exact hinv.disjoint Y1 (List.mem_of_mem_filter h1) Y2 (List.mem_of_mem_filter h2) _ m1 m2
  have hsub : ((p.filter (fun s => !s.isEmpty)).map (fun Y => Y.headD 0)).toFinset ⊆
      valid.toFinset := by
    intro q hq
    simp only [List.mem_toFinset, List.mem_map] at hq ⊢
    obtain ⟨Y, hY, rfl⟩ := hq
    exact hinv.within Y (List.mem_of_mem_filter hY) _ (hne Y hY)
  have := Finset.card_le_card hsub
  rw [List.toFinset_card_of_nodup hnd, List.length_map] at this
  exact this

theorem mem_split_of_ne (final valid : List state) (p w : List (List state))
    (x y t : List state) (hinv : PartitionInv final valid p w) (ht : t ∈ p) (hne : t ≠ y) :
    t ∈ (split_block x (p, w) y).1 := by
  by_cases h1 : intersection x y = []
  · rw [split_block_eq_self x y _ (Or.inl h1)]; exact ht
  by_cases h2 : difference y x = []
  · rw [split_block_eq_self x y _ (Or.inr h2)]; exact ht
  exact (mem_split_fst final valid p w x y hinv h1 h2 t).2 (Or.inr (Or.inr ⟨ht, hne⟩))

theorem split_measure (final valid : List state) (p w : List (List state))
    (x y : List state) (hinv : PartitionInv final valid p w) (hy : y ∈ p) :
    (split_block x (p, w) y).2.length + block_count p ≤
      w.length + block_count (split_block x (p, w) y).1 := by
  by_cases h1 : intersection x y = []
  · rw [split_block_eq_self x y _ (Or.inl h1)]
  by_cases h2 : difference y x = []
  · rw [split_block_eq_self x y _ (Or.inr h2)]
  obtain ⟨hf1, hf2, hf3⟩ := halves_fresh final valid p w x y hinv hy h1 h2
  have hyne : y ≠ [] := by
    intro h
    apply h1
    rw [h]
    simp [intersection]
  have hc1 : block_count (split_block x (p, w) y).1 = 2 + block_count (ssErase p y) := by
    rw [split_block_fst x y p w h1 h2]
    have hp1 := perm_ssInsert (ssErase p y) (intersection x y)
      (fun h => hf1 (mem_of_mem_ssErase _ _ _ h))
    have hp2 := perm_ssInsert (ssInsert (ssErase p y) (intersection x y)) (difference y x)
      (by
        rw [mem_ssInsert]
        rintro (h | h)
        · exact hf3 h.symm
        · exact hf2 (mem_of_mem_ssErase _ _ _ h))
    rw [block_count_perm _ _ hp2, block_count_cons, if_neg h2,
      block_count_perm _ _ hp1, block_count_cons, if_neg h1]
    omega
  have hc2 : block_count p = 1 + block_count (ssErase p y) := by
    rw [← block_count_perm _ _ (perm_ssErase p y hy), block_count_cons, if_neg hyne]
  have hw : (split_block x (p, w) y).2.length ≤ w.length + 1 := by
    rw [split_block_snd x y p w h1 h2]
    split_ifs with hyw hle
    · have e1 := length_ssErase w y hyw
      have e2 := length_ssInsert_le (ssErase w y) (intersection x y)
      have e3 := length_ssInsert_le (ssInsert (ssErase w y) (intersection x y))
        (difference y x)
      omega
    · exact length_ssInsert_le _ _
    · exact length_ssInsert_le _ _
  omega

theorem blocks_fold_spec (final valid : List state) (x a : List state) (cs : List letter)
    (c : letter)
    (Q : List (List state) → List (List state) → List state → List letter → letter →
      List (List state) → Prop)
    (hsplit : ∀ (p w : List (List state)) (y : List state) (ys : List (List state)),
      PartitionInv final valid p w → y ∈ p → y ∉ ys → (∀ t, t ∈ ys → t ∈ p) →
      Q p w a cs c (y :: ys) →
      Q (split_block x (p, w) y).1 (split_block x (p, w) y).2 a cs c ys) :
    ∀ (ys : List (List state)) (p w : List (List state)),
      ys.Nodup → (∀ t, t ∈ ys → t ∈ p) → PartitionInv final valid p w → Q p w a cs c ys →
      PartitionInv final valid (ys.foldl (split_block x) (p, w)).1
          (ys.foldl (split_block x) (p, w)).2 ∧
        Q (ys.foldl (split_block x) (p, w)).1 (ys.foldl (split_block x) (p, w)).2 a cs c [] ∧
        (ys.foldl (split_block x) (p, w)).2.length + block_count p ≤
          w.length + block_count (ys.foldl (split_block x) (p, w)).1 := by
  intro ys
  induction ys with
  | nil =>
    intro p w _ _ hinv hq
    exact ⟨hinv, hq, le_refl _⟩
  | cons y ys ih =>
    intro p w hnd hsub hinv hq
    simp only [List.nodup_cons] at hnd
    have hy : y ∈ p := hsub y (by simp)
    have hsub2 : ∀ t, t ∈ ys → t ∈ p := fun t ht => hsub t (by simp [ht])
    have hinv2 := partitionInv_split final valid p w x y hinv hy
    have hq2 := hsplit p w y ys hinv hy hnd.1 hsub2 hq
    have hsub3 : ∀ t, t ∈ ys → t ∈ (split_block x (p, w) y).1 := by
      intro t ht
      exact mem_split_of_ne final valid p w x y t hinv (hsub2 t ht)
        (fun e => hnd.1 (e ▸ ht))
    have hm := split_measure final valid p w x y hinv hy
    obtain ⟨r1, r2, r3⟩ := ih (split_block x (p, w) y).1 (split_block x (p, w) y).2
      hnd.2 hsub3 hinv2 hq2
    simp only [Prod.mk.eta] at r1 r2 r3
    simp only [List.foldl_cons]
    refine ⟨r1, r2, ?_⟩
    omega

theorem letters_fold_spec (d : DFA) (final valid : List state) (a : List state)
    (Q : List (List state) → List (List state) → List state → List letter → letter →
      List (List state) → Prop)
    (hletter : ∀ (p w : List (List state)) (c : letter) (cs : List letter) (c0 : letter),
      PartitionInv final valid p w → Q p w a (c :: cs) c0 [] → Q p w a cs c p)
    (hsplit : ∀ (p w : List (List state)) (cs : List letter) (c : letter) (y : List state)
      (ys : List (List state)),
      PartitionInv final valid p w → y ∈ p → y ∉ ys → (∀ t, t ∈ ys → t ∈ p) →
      Q p w a cs c (y :: ys) →
      Q (split_block (compute_x valid a c d.graph []) (p, w) y).1
        (split_block (compute_x valid a c d.graph []) (p, w) y).2 a cs c ys) :
    ∀ (cs : List letter) (p w : List (List state)) (c0 : letter),
      PartitionInv final valid p w → Q p w a cs c0 [] →
      PartitionInv final valid (cs.foldl (refine_letter d valid a) (p, w)).1
          (cs.foldl (refine_letter d valid a) (p, w)).2 ∧
        (∃ c1 : letter, Q (cs.foldl (refine_letter d valid a) (p, w)).1
          (cs.foldl (refine_letter d valid a) (p, w)).2 a [] c1 []) ∧
        (cs.foldl (refine_letter d valid a) (p, w)).2.length + block_count p ≤
          w.length + block_count (cs.foldl (refine_letter d valid a) (p, w)).1 := by
  intro cs
  induction cs with
  | nil =>
    intro p w c0 hinv hq
    exact ⟨hinv, ⟨c0, hq⟩, le_refl _⟩
  | cons c cs ih =>
    intro p w c0 hinv hq
    have hq1 := hletter p w c cs c0 hinv hq
    obtain ⟨b1, b2, b3⟩ := blocks_fold_spec final valid (compute_x valid a c d.graph []) a cs c Q
      (fun p w y ys => hsplit p w cs c y ys) p p w hinv.nodup_p (fun t ht => ht) hinv hq1
    obtain ⟨r1, r2, r3⟩ := ih _ _ c b1 b2
    simp only [Prod.mk.eta] at r1 r2 r3
    simp only [List.foldl_cons]
    have he : refine_letter d valid a (p, w) c =
        p.foldl (split_block (compute_x valid a c d.graph [])) (p, w) := rfl
    rw [he]
    refine ⟨r1, r2, ?_⟩
    omega

theorem partitionInv_pop (final valid : List state) (p w : List (List state)) (a : List state)
    (hinv : PartitionInv final valid p (a :: w)) : PartitionInv final valid p w :=
  { nodup_p := hinv.nodup_p
    nodup_w := (List.nodup_cons.1 hinv.nodup_w).2
    w_sub := fun t ht => hinv.w_sub t (by simp [ht])
    within := hinv.within
    cover := hinv.cover
    disjoint := hinv.disjoint
    homogeneous := hinv.homogeneous }

theorem refine_spec (d : DFA) (final valid : List state) (letters : List letter)
    (Q : List (List state) → List (List state) → List state → List letter → letter →
      List (List state) → Prop)
    (hpop : ∀ (p w : List (List state)) (a a0 : List state) (c0 : letter),
      PartitionInv final valid p (a :: w) → Q p (a :: w) a0 [] c0 [] → Q p w a letters c0 [])
    (hletter : ∀ (p w : List (List state)) (a : List state) (c : letter) (cs : List letter)
      (c0 : letter),
      PartitionInv final valid p w → Q p w a (c :: cs) c0 [] → Q p w a cs c p)
    (hsplit : ∀ (p w : List (List state)) (a : List state) (cs : List letter) (c : letter)
      (y : List state) (ys : List (List state)),
      PartitionInv final valid p w → y ∈ p → y ∉ ys → (∀ t, t ∈ ys → t ∈ p) →
      Q p w a cs c (y :: ys) →
      Q (split_block (compute_x valid a c d.graph []) (p, w) y).1
        (split_block (compute_x valid a c d.graph []) (p, w) y).2 a cs c ys) :
    ∀ (fuel : Nat) (p w : List (List state)) (a0 : List state) (c0 : letter),
      PartitionInv final valid p w →
      w.length + valid.toFinset.card ≤ fuel + block_count p →
      Q p w a0 [] c0 [] →
      ∃ (P : List (List state)) (a1 : List state) (c1 : letter),
        refine d valid letters fuel p w = some P ∧
        PartitionInv final valid P [] ∧ Q P [] a1 [] c1 [] := by
  intro fuel
  induction fuel with
  | zero =>
    intro p w a0 c0 hinv hfuel hq
    have hle := block_count_le final valid p w hinv
    have hw : w = [] := by
      cases w with
      | nil => rfl
      | cons a l => simp only [List.length_cons] at hfuel; omega
    subst hw
    exact ⟨p, a0, c0, by simp [refine], hinv, hq⟩
  | succ fuel ih =>
    intro p w a0 c0 hinv hfuel hq
    cases w with
    | nil => exact ⟨p, a0, c0, by simp [refine], hinv, hq⟩
    | cons a w =>
      have hinv1 := partitionInv_pop final valid p w a hinv
      have hq1 := hpop p w a a0 c0 hinv hq
      obtain ⟨r1, ⟨c1, r2⟩, r3⟩ := letters_fold_spec d final valid a Q
        (fun p w c cs c0 => hletter p w a c cs c0)
        (fun p w cs c y ys => hsplit p w a cs c y ys) letters p w c0 hinv1 hq1
      simp only [List.length_cons] at hfuel
      obtain ⟨P, a2, c2, hP, hPinv, hPq⟩ := ih _ _ a c1 r1 (by omega) r2
      exact ⟨P, a2, c2, by simpa only [refine] using hP, hPinv, hPq⟩

/-! ## The initial partition and the result of the loop -/

theorem lexLt_irrefl (s : List Nat) : lexLt s s = false := by
  induction s with
  | nil => rfl
  | cons a t ih => simp [lexLt, ih]

theorem mem_initial_partition (d : DFA) (valid t : List state) :
    t ∈ initial_partition d valid ↔
      t = intersection d.non_final valid ∨ t = intersection d.final valid := by
  unfold initial_partition
  rw [mem_ssInsert, mem_ssInsert]
  simp

theorem nodup_initial_partition (d : DFA) (valid : List state) :
    (initial_partition d valid).Nodup := by
  unfold initial_partition
  by_cases h : intersection d.non_final valid = intersection d.final valid
  · rw [h]
    simp [ssInsert, lexLt_irrefl]
  · apply nodup_ssInsert
    · simp [ssInsert]
    · simpa [ssInsert] using h

theorem length_initial_partition (d : DFA) (valid : List state) :
    (initial_partition d valid).length ≤ 2 := by
  unfold initial_partition
  have h1 := length_ssInsert_le (ssInsert [] (intersection d.final valid))
    (intersection d.non_final valid)
  have h2 := length_ssInsert_le [] (intersection d.final valid)
  simp only [List.length_nil] at h2
  omega

theorem mem_states (d : DFA) (q : state) (h : q = d.start ∨ q ∈ d.all_nexts) :
    q ∈ d.states := by
  unfold states
  rw [mem_foldl_setInsert]
  right
  rcases h with h | h
  · simp [h]
  · simp [h]

theorem path_mem_states (d : DFA) (q : state) (h : Path d d.start q) : q ∈ d.states := by
  apply mem_states
  cases h with
  | refl => exact Or.inl rfl
  | tail _ hstep => exact Or.inr (step_mem_all_nexts d _ _ hstep)

theorem valid_states_some (d : DFA) :
    ∃ valid : List state, d.valid_states = some valid ∧
      (∀ q : state, q ∈ valid → Path d d.start q) ∧
      (∀ q : state, q ∈ valid ↔
        (∃ f : state, f ∈ d.final ∧
          Relation.ReflTransGen (Nbr (fun here => mapFind d.transposed here)) f q) ∧
        Path d d.start q) := by
  obtain ⟨r, hr, hrs⟩ := reachable_states_some d
  obtain ⟨a, ha, has⟩ := alive_states_spec d
  refine ⟨intersection a r, by simp [valid_states, ha, hr], ?_, ?_⟩
  · intro q hq
    exact (hrs q).1 ((mem_intersection a r q).1 hq).2
  · intro q
    rw [mem_intersection, has, hrs]

theorem partitionInv_initial (d : DFA) (valid : List state)
    (hv : ∀ q : state, q ∈ valid → q ∈ d.states) :
    PartitionInv d.final valid (initial_partition d valid) (initial_partition d valid) := by
  have hF : ∀ q : state, q ∈ intersection d.final valid ↔ q ∈ d.final ∧ q ∈ valid :=
    fun q => mem_intersection _ _ q
  have hN : ∀ q : state, q ∈ intersection d.non_final valid ↔
      (q ∈ d.states ∧ q ∉ d.final) ∧ q ∈ valid := by
    intro q
    rw [mem_intersection, non_final, mem_difference]
  constructor
  · exact nodup_initial_partition d valid
  · exact nodup_initial_partition d valid
  · exact fun t ht => ht
  · intro Y hY q hq
    rcases (mem_initial_partition d valid Y).1 hY with h | h
    · rw [h] at hq; exact ((hN q).1 hq).2
    · rw [h] at hq; exact ((hF q).1 hq).2
  · intro q hq
    by_cases hf : q ∈ d.final
    · exact ⟨_, (mem_initial_partition d valid _).2 (Or.inr rfl), (hF q).2 ⟨hf, hq⟩⟩
    · exact ⟨_, (mem_initial_partition d valid _).2 (Or.inl rfl),
        (hN q).2 ⟨⟨hv q hq, hf⟩, hq⟩⟩
  · intro Y1 h1 Y2 h2 q hq1 hq2
    rcases (mem_initial_partition d valid Y1).1 h1 with a1 | a1 <;>
      rcases (mem_initial_partition d valid Y2).1 h2 with a2 | a2
    · rw [a1, a2]
    · rw [a1] at hq1; rw [a2] at hq2
      exact absurd ((hF q).1 hq2).1 ((hN q).1 hq1).1.2
    · rw [a1] at hq1; rw [a2] at hq2
      exact absurd ((hF q).1 hq1).1 ((hN q).1 hq2).1.2
    · rw [a1, a2]
  · intro Y hY
    rcases (mem_initial_partition d valid Y).1 hY with h | h
    · right
      intro q hq
      rw [h] at hq
      exact ((hN q).1 hq).1.2
    · left
      intro q hq
      rw [h] at hq
      exact ((hF q).1 hq).1

theorem final_partition_spec (d : DFA) (valid : List state)
    (hvalid : d.valid_states = some valid)
    (Q : List (List state) → List (List state) → List state → List letter → letter →
      List (List state) → Prop)
    (hpop : ∀ (p w : List (List state)) (a a0 : List state) (c0 : letter),
      PartitionInv d.final valid p (a :: w) → Q p (a :: w) a0 [] c0 [] →
      Q p w a d.alphabet c0 [])
    (hletter : ∀ (p w : List (List state)) (a : List state) (c : letter) (cs : List letter)
      (c0 : letter),
      PartitionInv d.final valid p w → Q p w a (c :: cs) c0 [] → Q p w a cs c p)
    (hsplit : ∀ (p w : List (List state)) (a : List state) (cs : List letter) (c : letter)
      (y : List state) (ys : List (List state)),
      PartitionInv d.final valid p w → y ∈ p → y ∉ ys → (∀ t, t ∈ ys → t ∈ p) →
      Q p w a cs c (y :: ys) →
      Q (split_block (compute_x valid a c d.graph []) (p, w) y).1
        (split_block (compute_x valid a c d.graph []) (p, w) y).2 a cs c ys)
    (a0 : List state) (c0 : letter)
    (hstart : Q (initial_partition d valid) (initial_partition d valid) a0 [] c0 []) :
    ∃ (P : List (List state)) (a1 : List state) (c1 : letter),
      d.final_partition = some P ∧ PartitionInv d.final valid P [] ∧ Q P [] a1 [] c1 [] := by
  obtain ⟨valid2, hv2, hpath, -⟩ := valid_states_some d
  rw [hvalid] at hv2
  cases hv2
  have hinv := partitionInv_initial d valid (fun q hq => path_mem_states d q (hpath q hq))
  have hfuel : (initial_partition d valid).length + valid.toFinset.card ≤
      (valid.length + 2) + block_count (initial_partition d valid) := by
    have h1 := length_initial_partition d valid
    have h2 := List.toFinset_card_le valid
    omega
  obtain ⟨P, a1, c1, hP, hPinv, hPq⟩ :=
    refine_spec d d.final valid d.alphabet Q hpop hletter hsplit _ _ _ a0 c0 hinv hfuel hstart
  refine ⟨P, a1, c1, ?_, hPinv, hPq⟩
  simp only [final_partition, hvalid]
  exact hP

/-- Claim C16. For every automaton the worklist loop of `minimize` ends within its fuel,
so `minimize` returns a result, and so do the breadth-first loops of `reachable_states`
and `alive_states`. -/
theorem minimize_terminates (s0 : state) (d : DFA) :
    (∃ P : List (List state), d.final_partition = some P) ∧
    (∃ r : DFA, minimize s0 d = some r) ∧
    (∃ r : List state, d.reachable_states = some r) ∧
    (∃ a : List state, d.alive_states = some a) := by
  obtain ⟨valid, hv, -⟩ := valid_states_some d
  obtain ⟨P, -, -, hP, -, -⟩ := final_partition_spec d valid hv (fun _ _ _ _ _ _ => True)
    (fun _ _ _ _ _ _ _ => trivial) (fun _ _ _ _ _ _ _ _ => trivial)
    (fun _ _ _ _ _ _ _ _ _ _ _ _ => trivial) [] 0 trivial
  obtain ⟨r, hr, -⟩ := reachable_states_some d
  obtain ⟨a, ha, -⟩ := alive_states_spec d
  refine ⟨⟨P, hP⟩, ⟨emit_blocks d valid (number_blocks P 0 []) P 0 (empty s0), ?_⟩,
    ⟨r, hr⟩, ⟨a, ha⟩⟩
  simp only [minimize, hv, hP]

theorem loopState_inv (d : DFA) (valid : List state)
    (hv : ∀ q : state, q ∈ valid → q ∈ d.states) (p w : List (List state))
    (h : LoopState d valid p w) : PartitionInv d.final valid p w := by
  induction h with
  | start => exact partitionInv_initial d valid hv
  | pop _ ih => exact partitionInv_pop _ _ _ _ _ ih
  | split x y _ hy ih => exact partitionInv_split _ _ _ _ x y ih hy

/-- Claim C19. In every state of the refinement loop of `minimize` (the initial one and
the one after each split), the blocks of `p` are pairwise disjoint, their union is
`valid_states()`, every block is inside `final` or disjoint from it, and every set of the
worklist `w` is a block of `p`; the final partition is reached through such states and
satisfies the same invariant. -/
theorem refinement_partition_invariant (d : DFA) :
    ∃ valid : List state, d.valid_states = some valid ∧
      (∀ p w : List (List state), LoopState d valid p w →
        PartitionInv d.final valid p w) ∧
      ∃ P : List (List state), d.final_partition = some P ∧
        LoopState d valid P [] ∧ PartitionInv d.final valid P [] := by
  obtain ⟨valid, hv, hpath, -⟩ := valid_states_some d
  have hst : ∀ q : state, q ∈ valid → q ∈ d.states :=
    fun q hq => path_mem_states d q (hpath q hq)
  refine ⟨valid, hv, loopState_inv d valid hst, ?_⟩
  obtain ⟨P, -, -, hP, hinv, hls⟩ := final_partition_spec d valid hv
    (fun p w _ _ _ _ => LoopState d valid p w)
    (fun _ _ _ _ _ _ h => LoopState.pop h) (fun _ _ _ _ _ _ _ h => h)
    (fun _ _ a _ c y _ _ hy _ _ h => LoopState.split (compute_x valid a c d.graph []) y h hy)
    [] 0 LoopState.start
  exact ⟨P, hP, hls, hinv⟩

/-! ## Empty blocks -/

/-- Claim C15, where it fails. For the automaton with the single edge `0 -a-> 0`, start
`0` and final state `0`, every valid state is final: the initial partition holds the empty
set, and so does the final partition. -/
theorem initial_partition_keeps_empty_set :
    (build 0 [Op.add_edge 0 0 97, Op.set_initial 0, Op.set_final 0]).valid_states =
      some [0] ∧
    [] ∈ initial_partition (build 0 [Op.add_edge 0 0 97, Op.set_initial 0, Op.set_final 0]) [0] ∧
    (build 0 [Op.add_edge 0 0 97, Op.set_initial 0, Op.set_final 0]).final_partition =
      some [[], [0]] ∧
    ¬ (∀ Y : List state, Y ∈ [[], [0]] → Y ≠ []) := by
  decide

/-- Claim C15 as amended. `minimize` discards no empty set: the initial partition and
worklist hold exactly the two sets `final ∩ valid` and `non_final ∩ valid`, so they hold
the empty set exactly when one of the two is empty; the loop neither adds nor removes an
empty set, so the final partition holds the empty block in exactly those cases, and
holds it once. -/
theorem empty_block_is_kept (d : DFA) :
    ∃ (valid : List state) (P : List (List state)),
      d.valid_states = some valid ∧ d.final_partition = some P ∧
      (∀ t : List state, t ∈ initial_partition d valid ↔
        t = intersection d.non_final valid ∨ t = intersection d.final valid) ∧
      ([] ∈ P ↔ intersection d.non_final valid = [] ∨ intersection d.final valid = []) ∧
      P.Nodup := by
  obtain ⟨valid, hv, -⟩ := valid_states_some d
  obtain ⟨P, -, -, hP, hinv, hq⟩ := final_partition_spec d valid hv
    (fun p _ _ _ _ _ => ([] ∈ p ↔ [] ∈ initial_partition d valid))
    (fun _ _ _ _ _ _ h => h) (fun _ _ _ _ _ _ _ h => h)
    (fun p w a _ c y _ hpi _ _ _ h => by
      beta_reduce at h ⊢
      by_cases h1 : intersection (compute_x valid a c d.graph []) y = []
      · rw [split_block_eq_self _ y _ (Or.inl h1)]; exact h
      by_cases h2 : difference y (compute_x valid a c d.graph []) = []
      · rw [split_block_eq_self _ y _ (Or.inr h2)]; exact h
      have hy : y ≠ [] := by
        intro e
        apply h1
        rw [e]
        simp [intersection]
      rw [mem_split_fst d.final valid p w _ y hpi h1 h2, ← h]
      constructor
      · rintro (e | e | e)
        · exact absurd e.symm h2
        · exact absurd e.symm h1
        · exact e.1
      · intro e
        exact Or.inr (Or.inr ⟨e, fun e2 => hy e2.symm⟩))
    [] 0 Iff.rfl
  refine ⟨valid, P, hv, hP, mem_initial_partition d valid, ?_, hinv.nodup_p⟩
  rw [hq, mem_initial_partition]
  constructor
  · rintro (h | h)
    · exact Or.inl h.symm
    · exact Or.inr h.symm
  · rintro (h | h)
    · exact Or.inl h.symm
    · exact Or.inr h.symm

/-! ## The map `graph` of a built automaton and the set `X` -/

theorem mem_mapSet {α : Type} (m : List (state × α)) (k : state) (v : α) (kv : state × α)
    (h : kv ∈ mapSet m k v) : kv = (k, v) ∨ kv ∈ m := by
  induction m with
  | nil => simpa [mapSet] using h
  | cons kv1 rest ih =>
    obtain ⟨k1, v1⟩ := kv1
    simp only [mapSet] at h
    split_ifs at h with h1 h2
    · rcases List.mem_cons.1 h with h3 | h3
      · exact Or.inl h3
      · exact Or.inr h3
    · rcases List.mem_cons.1 h with h3 | h3
      · exact Or.inl h3
      · exact Or.inr (by simp [h3])
    · rcases List.mem_cons.1 h with h3 | h3
      · exact Or.inr (by simp [h3])
      · rcases ih h3 with h4 | h4
        · exact Or.inl h4
        · exact Or.inr (by simp [h4])

theorem keys_mapSet_sorted {α : Type} (m : List (state × α)) (k : state) (v : α)
    (h : (m.map (fun kv => kv.1)).Pairwise (fun a b => a < b)) :
    ((mapSet m k v).map (fun kv => kv.1)).Pairwise (fun a b => a < b) := by
  induction m with
  | nil => simp [mapSet]
  | cons kv1 rest ih =>
    obtain ⟨k1, v1⟩ := kv1
    simp only [List.map_cons, List.pairwise_cons] at h
    simp only [mapSet]
    split_ifs with h1 h2
    · simp only [List.map_cons, List.pairwise_cons, List.mem_cons]
      refine ⟨?_, h.1, h.2⟩
      rintro b (hb | hb)
      · rw [hb]; exact h1
      · exact lt_trans h1 (h.1 b hb)
    · subst h2
      simp only [List.map_cons, List.pairwise_cons]
      exact ⟨h.1, h.2⟩
    · simp only [List.map_cons, List.pairwise_cons]
      refine ⟨?_, ih h.2⟩
      intro b hb
      obtain ⟨kv, hkv, rfl⟩ := List.mem_map.1 hb
      rcases mem_mapSet rest k v kv hkv with h3 | h3
      · rw [h3]
        exact Nat.lt_of_le_of_ne (Nat.le_of_not_lt h1) (Ne.symm h2)
      · exact h.1 _ (List.mem_map_of_mem _ h3)

theorem mapFind_of_mem {α : Type} (m : List (state × α)) (k : state) (v : α)
    (hs : (m.map (fun kv => kv.1)).Pairwise (fun a b => a < b)) (h : (k, v) ∈ m) :
    mapFind m k = some v := by
  induction m with
  | nil => simp at h
  | cons kv1 rest ih =>
    obtain ⟨k1, v1⟩ := kv1
    simp only [List.map_cons, List.pairwise_cons] at hs
    simp only [mapFind]
    rcases List.mem_cons.1 h with h1 | h1
    · cases h1
      simp
    · have hlt : k1 < k := hs.1 k (List.mem_map.2 ⟨(k, v), h1, rfl⟩)
      rw [if_neg (Nat.ne_of_gt hlt)]
      exact ih hs.2 h1

theorem keysSorted_add_edge (d : DFA) (a b : state) (s : letter) (h : d.KeysSorted) :
    (d.add_edge a b s).KeysSorted := by
  unfold add_edge
  cases overwrite (d.edges a) b s with
  | none => exact keys_mapSet_sorted _ _ _ h
  | some vec => exact keys_mapSet_sorted _ _ _ h

theorem keysSorted_foldl (ops : List Op) (d : DFA) (h : d.KeysSorted) :
    (ops.foldl apply_op d).KeysSorted := by
  induction ops generalizing d with
  | nil => exact h
  | cons op rest ih =>
    apply ih
    cases op with
    | add_edge a b s => exact keysSorted_add_edge d a b s h
    | set_initial q => exact h
    | set_final q => exact h

theorem keysSorted_build (s0 : state) (ops : List Op) : (build s0 ops).KeysSorted :=
  keysSorted_foldl ops _ (by simp [KeysSorted, empty])

theorem leads_into_iff (a : List state) (c : letter) (vec : List Edge) :
    leads_into a c vec = true ↔ ∃ e : Edge, e ∈ vec ∧ e.transition = c ∧ e.next ∈ a := by
  induction vec with
  | nil => simp [leads_into]
  | cons e es ih =>
    simp only [leads_into]
    split_ifs with h
    · simp only [true_iff]
      exact ⟨e, by simp, h.1, h.2⟩
    · rw [ih]
      constructor
      · rintro ⟨e2, h1, h2⟩
        exact ⟨e2, by simp [h1], h2⟩
      · rintro ⟨e2, h1, h2⟩
        rcases List.mem_cons.1 h1 with h3 | h3
        · subst h3; exact absurd h2 h
        · exact ⟨e2, h3, h2⟩

theorem mem_compute_x (valid a : List state) (c : letter) (g : List (state × List Edge))
    (acc : List state) (q : state) :
    q ∈ compute_x valid a c g acc ↔
      q ∈ acc ∨ (q ∈ valid ∧ ∃ node : state × List Edge, node ∈ g ∧ node.1 = q ∧
        leads_into a c node.2 = true) := by
  induction g generalizing acc with
  | nil => simp [compute_x]
  | cons node rest ih =>
    simp only [compute_x]
    split_ifs with h1 h2
    · rw [ih, mem_setInsert]
      constructor
      · rintro ((h | h) | ⟨h3, n, h4, h5⟩)
        · exact Or.inr ⟨h ▸ h1, node, by simp, h.symm, h2⟩
        · exact Or.inl h
        · exact Or.inr ⟨h3, n, by simp [h4], h5⟩
      · rintro (h | ⟨h3, n, h4, h5⟩)
        · exact Or.inl (Or.inr h)
        · rcases List.mem_cons.1 h4 with h6 | h6
          · subst h6; exact Or.inl (Or.inl h5.1.symm)
          · exact Or.inr ⟨h3, n, h6, h5⟩
    · rw [ih]
      constructor
      · rintro (h | ⟨h3, n, h4, h5⟩)
        · exact Or.inl h
        · exact Or.inr ⟨h3, n, by simp [h4], h5⟩
      · rintro (h | ⟨h3, n, h4, h5⟩)
        · exact Or.inl h
        · rcases List.mem_cons.1 h4 with h6 | h6
          · subst h6; rw [h5.2] at h2; exact absurd rfl h2
          · exact Or.inr ⟨h3, n, h6, h5⟩
    · rw [ih]
      constructor
      · rintro (h | ⟨h3, n, h4, h5⟩)
        · exact Or.inl h
        · exact Or.inr ⟨h3, n, by simp [h4], h5⟩
      · rintro (h | ⟨h3, n, h4, h5⟩)
        · exact Or.inl h
        · rcases List.mem_cons.1 h4 with h6 | h6
          · subst h6; rw [h5.1] at h1; exact absurd h3 h1
          · exact Or.inr ⟨h3, n, h6, h5⟩

theorem mem_x_iff (d : DFA) (hk : d.KeysSorted) (hd : d.Deterministic)
    (valid a : List state) (c : letter) (q : state) :
    q ∈ compute_x valid a c d.graph [] ↔ q ∈ valid ∧ Into d a c q := by
  rw [mem_compute_x]
  simp only [List.not_mem_nil, false_or]
  constructor
  · rintro ⟨hv, node, hn, hq, hl⟩
    refine ⟨hv, ?_⟩
    obtain ⟨e, he, hc, ha⟩ := (leads_into_iff a c node.2).1 hl
    have hfind : mapFind d.graph q = some node.2 :=
      mapFind_of_mem d.graph q node.2 hk (by rw [← hq]; exact hn)
    have hedges : d.edges q = node.2 := by simp [edges, hfind]
    have hdq := hd q
    rw [hedges] at hdq
    refine ⟨e.next, ?_, ha⟩
    rw [hedges, ← hc]
    exact find_edge_of_mem node.2 e hdq he
  · rintro ⟨hv, n, hf, hn⟩
    refine ⟨hv, ?_⟩
    obtain ⟨e, he, hc, hen⟩ := find_edge_some _ _ _ hf
    cases hg : mapFind d.graph q with
    | none => simp [edges, hg] at he
    | some vec =>
      have hedges : d.edges q = vec := by simp [edges, hg]
      rw [hedges] at he
      exact ⟨(q, vec), mem_of_mapFind _ _ _ hg, rfl,
        (leads_into_iff a c vec).2 ⟨e, he, hc, by rw [hen]; exact hn⟩⟩

/-! ## The numbering of the blocks -/

theorem mapFind_foldl_mapSet (s : List state) (index : Nat) (m : List (state × Nat))
    (x : state) :
    mapFind (s.foldl (fun m x => mapSet m x index) m) x =
      if x ∈ s then some index else mapFind m x := by
  induction s generalizing m with
  | nil => simp
  | cons y ys ih =>
    simp only [List.foldl_cons, ih, mapFind_mapSet, List.mem_cons]
    by_cases h1 : x ∈ ys
    · simp [h1]
    · by_cases h2 : x = y
      · simp [h2]
      · simp [h1, h2]

theorem number_blocks_absent (l : List (List state)) (index : Nat) (m : List (state × Nat))
    (x : state) (h : ∀ Y : List state, Y ∈ l → x ∉ Y) :
    mapFind (number_blocks l index m) x = mapFind m x := by
  induction l generalizing index m with
  | nil => rfl
  | cons s rest ih =>
    simp only [number_blocks]
    rw [ih _ _ (fun Y hY => h Y (by simp [hY])), mapFind_foldl_mapSet,
      if_neg (h s (by simp))]

theorem number_blocks_at (l : List (List state)) (index : Nat) (m : List (state × Nat))
    (x : state) (i : Nat) (Y : List state) (hi : l[i]? = some Y) (hx : x ∈ Y)
    (hlast : ∀ (j : Nat) (Y2 : List state), i < j → l[j]? = some Y2 → x ∉ Y2) :
    mapFind (number_blocks l index m) x = some (index + i) := by
  induction l generalizing index m i with
  | nil => simp at hi
  | cons s rest ih =>
    simp only [number_blocks]
    cases i with
    | zero =>
      simp only [List.getElem?_cons_zero, Option.some.injEq] at hi
      subst hi
      rw [number_blocks_absent, mapFind_foldl_mapSet, if_pos hx]
      · rfl
      · intro Y2 hY2
        obtain ⟨j, hj⟩ := List.getElem?_of_mem hY2
        exact hlast (j + 1) Y2 (by omega) (by simpa using hj)
    | succ i =>
      simp only [List.getElem?_cons_succ] at hi
      rw [ih (index + 1) _ i hi]
      · congr 1; omega
      · intro j Y2 hij hj
        exact hlast (j + 1) Y2 (by omega) (by simpa using hj)

theorem number_blocks_spec (final valid : List state) (P : List (List state))
    (hinv : PartitionInv final valid P []) (x : state) (i : Nat) (Y : List state)
    (hi : P[i]? = some Y) (hx : x ∈ Y) :
    mapFind (number_blocks P 0 []) x = some i := by
  rw [number_blocks_at P 0 [] x i Y hi hx, Nat.zero_add]
  intro j Y2 hij hj hx2
  have hY1 : Y ∈ P := List.mem_iff_getElem?.2 ⟨i, hi⟩
  have hY2 : Y2 ∈ P := List.mem_iff_getElem?.2 ⟨j, hj⟩
  have heq := hinv.disjoint Y hY1 Y2 hY2 x hx hx2
  have hlt : i < P.length := by
    by_contra hge
    rw [List.getElem?_eq_none (by omega)] at hi
    cases hi
  have hij2 : i = j := List.getElem?_inj hlt hinv.nodup_p (by rw [hi, hj, heq])
  omega

/-! ## States with the same edges -/

theorem same_block_split (final valid : List state) (p w : List (List state))
    (x y : List state) (q1 q2 : state) (hinv : PartitionInv final valid p w)
    (hx : q1 ∈ x ↔ q2 ∈ x)
    (h : ∃ Y : List state, Y ∈ p ∧ q1 ∈ Y ∧ q2 ∈ Y) :
    ∃ Y : List state, Y ∈ (split_block x (p, w) y).1 ∧ q1 ∈ Y ∧ q2 ∈ Y := by
  obtain ⟨Y, hY, m1, m2⟩ := h
  by_cases hYy : Y = y
  · subst hYy
    by_cases h1 : intersection x Y = []
    · rw [split_block_eq_self x Y _ (Or.inl h1)]; exact ⟨Y, hY, m1, m2⟩
    by_cases h2 : difference Y x = []
    · rw [split_block_eq_self x Y _ (Or.inr h2)]; exact ⟨Y, hY, m1, m2⟩
    by_cases hq : q1 ∈ x
    · exact ⟨intersection x Y,
        (mem_split_fst final valid p w x Y hinv h1 h2 _).2 (Or.inr (Or.inl rfl)),
        (mem_intersection x Y q1).2 ⟨hq, m1⟩, (mem_intersection x Y q2).2 ⟨hx.1 hq, m2⟩⟩
    · exact ⟨difference Y x,
        (mem_split_fst final valid p w x Y hinv h1 h2 _).2 (Or.inl rfl),
        (mem_difference Y x q1).2 ⟨m1, hq⟩,
        (mem_difference Y x q2).2 ⟨m2, fun h3 => hq (hx.2 h3)⟩⟩
  · exact ⟨Y, mem_split_of_ne final valid p w x y Y hinv hY hYy, m1, m2⟩

/-- Claim C13. In an automaton built by calls of the mutators, two states of
`valid_states()` with the same final status and, for every letter, the same destination
or no edge at all, lie in one block of the final partition of `minimize`, and the
numbering gives both the index of that block, so they become one state of the result. -/
theorem identical_states_collapse (s0 : state) (ops : List Op) (valid : List state)
    (q1 q2 : state)
    (hv : (build s0 ops).valid_states = some valid) (h1 : q1 ∈ valid) (h2 : q2 ∈ valid)
    (hf : q1 ∈ (build s0 ops).final ↔ q2 ∈ (build s0 ops).final)
    (he : ∀ c : letter,
      find_edge ((build s0 ops).edges q1) c = find_edge ((build s0 ops).edges q2) c) :
    ∃ (P : List (List state)) (Y : List state) (i : Nat),
      (build s0 ops).final_partition = some P ∧ P[i]? = some Y ∧ q1 ∈ Y ∧ q2 ∈ Y ∧
      mapFind (number_blocks P 0 []) q1 = some i ∧
      mapFind (number_blocks P 0 []) q2 = some i := by
  obtain ⟨valid2, hv2, hpath, -⟩ := valid_states_some (build s0 ops)
  rw [hv] at hv2
  cases hv2
  have hk := keysSorted_build s0 ops
  have hd := deterministic_build s0 ops
  have hinit := partitionInv_initial (build s0 ops) valid
    (fun q hq => path_mem_states _ q (hpath q hq))
  have hstart : ∃ Y : List state, Y ∈ initial_partition (build s0 ops) valid ∧
      q1 ∈ Y ∧ q2 ∈ Y := by
    obtain ⟨Y, hY, hq1⟩ := hinit.cover q1 h1
    obtain ⟨Y2, hY2, hq2⟩ := hinit.cover q2 h2
    rcases hinit.homogeneous Y hY with a1 | a1 <;>
      rcases hinit.homogeneous Y2 hY2 with a2 | a2
    · rcases (mem_initial_partition _ valid Y).1 hY with e1 | e1 <;>
        rcases (mem_initial_partition _ valid Y2).1 hY2 with e2 | e2
      · exact ⟨Y, hY, hq1, by rw [e1, ← e2]; exact hq2⟩
      · rw [e1] at hq1
        rw [mem_intersection, non_final, mem_difference] at hq1
        exact absurd (a1 q1 (by
          rw [e1, mem_intersection, non_final, mem_difference]; exact hq1)) hq1.1.2
      · rw [e2] at hq2
        rw [mem_intersection, non_final, mem_difference] at hq2
        exact absurd (a2 q2 (by
          rw [e2, mem_intersection, non_final, mem_difference]; exact hq2)) hq2.1.2
      · exact ⟨Y, hY, hq1, by rw [e1, ← e2]; exact hq2⟩
    · exact absurd (hf.1 (a1 q1 hq1)) (a2 q2 hq2)
    · exact absurd (hf.2 (a2 q2 hq2)) (a1 q1 hq1)
    · rcases (mem_initial_partition _ valid Y).1 hY with e1 | e1 <;>
        rcases (mem_initial_partition _ valid Y2).1 hY2 with e2 | e2
      · exact ⟨Y, hY, hq1, by rw [e1, ← e2]; exact hq2⟩
      · rw [e2, mem_intersection] at hq2
        exact absurd hq2.1 (a2 q2 (by rw [e2, mem_intersection]; exact hq2))
      · rw [e1, mem_intersection] at hq1
        exact absurd hq1.1 (a1 q1 (by rw [e1, mem_intersection]; exact hq1))
      · exact ⟨Y, hY, hq1, by rw [e1, ← e2]; exact hq2⟩
  obtain ⟨P, -, -, hP, hinv, Y, hY, m1, m2⟩ := final_partition_spec (build s0 ops) valid hv
    (fun p _ _ _ _ _ => ∃ Y : List state, Y ∈ p ∧ q1 ∈ Y ∧ q2 ∈ Y)
    (fun _ _ _ _ _ _ h => h) (fun _ _ _ _ _ _ _ h => h)
    (fun p w a _ c y _ hpi _ _ _ h => by
      beta_reduce at h ⊢
      apply same_block_split _ valid p w _ y q1 q2 hpi _ h
      rw [mem_x_iff _ hk hd, mem_x_iff _ hk hd]
      unfold Into
      rw [he c]
      simp [h1, h2])
    [] 0 hstart
  obtain ⟨i, hi⟩ := List.getElem?_of_mem hY
  exact ⟨P, Y, i, hP, hi, m1, m2, number_blocks_spec _ valid P hinv q1 i Y hi m1,
    number_blocks_spec _ valid P hinv q2 i Y hi m2⟩

/-- Claim C13 at a concrete automaton: start `0`, final `3`, edges `0 -a-> 1`,
`0 -b-> 2`, `1 -a-> 3` and `2 -a-> 3`; the states `1` and `2` have the same edges. -/
theorem identical_states_collapse_witness :
    ∃ (P : List (List state)) (Y : List state) (i : Nat),
      (build 0 [Op.add_edge 0 1 97, Op.add_edge 0 2 98, Op.add_edge 1 3 97,
        Op.add_edge 2 3 97, Op.set_initial 0, Op.set_final 3]).final_partition = some P ∧
      P[i]? = some Y ∧ 1 ∈ Y ∧ 2 ∈ Y ∧
      mapFind (number_blocks P 0 []) 1 = some i ∧
      mapFind (number_blocks P 0 []) 2 = some i :=
  identical_states_collapse 0
    [Op.add_edge 0 1 97, Op.add_edge 0 2 98, Op.add_edge 1 3 97,
      Op.add_edge 2 3 97, Op.set_initial 0, Op.set_final 3]
    [0, 1, 2, 3] 1 2 (by decide) (by decide) (by decide) (by decide)
    (fun c => by
      have h : (build 0 [Op.add_edge 0 1 97, Op.add_edge 0 2 98, Op.add_edge 1 3 97,
          Op.add_edge 2 3 97, Op.set_initial 0, Op.set_final 3]).edges 1 =
          (build 0 [Op.add_edge 0 1 97, Op.add_edge 0 2 98, Op.add_edge 1 3 97,
          Op.add_edge 2 3 97, Op.set_initial 0, Op.set_final 3]).edges 2 := by decide
      rw [h])

/-! ## The calls that build the result -/

theorem emit_edges_eq_calls (valid : List state) (partitions : List (state × Nat))
    (index : Nat) (vec : List Edge) (r : DFA) :
    emit_edges valid partitions index vec r =
      (edge_calls valid partitions index vec).foldl apply_op r := by
  induction vec generalizing r with
  | nil => rfl
  | cons e es ih =>
    simp only [emit_edges, edge_calls]
    split_ifs with h
    · rw [ih]; rfl
    · exact ih r

theorem emit_state_eq_calls (d : DFA) (valid : List state) (partitions : List (state × Nat))
    (index : Nat) (r : DFA) (x : state) :
    emit_state d valid partitions index r x =
      (state_calls d valid partitions index x).foldl apply_op r := by
  unfold emit_state state_calls
  simp only [List.foldl_append]
  have h1 : (if x ∈ d.final then r.set_final index else r) =
      (if x ∈ d.final then [Op.set_final index] else []).foldl apply_op r := by
    split_ifs <;> rfl
  have h2 : ∀ r1 : DFA, (if x = d.start then r1.set_initial index else r1) =
      (if x = d.start then [Op.set_initial index] else []).foldl apply_op r1 := by
    intro r1
    split_ifs <;> rfl
  rw [← h1, ← h2]
  cases mapFind d.graph x with
  | none => rfl
  | some vec => exact emit_edges_eq_calls valid partitions index vec _

theorem foldl_emit_state_eq_calls (d : DFA) (valid : List state)
    (partitions : List (state × Nat)) (index : Nat) (s : List state) (r : DFA) :
    s.foldl (emit_state d valid partitions index) r =
      ((s.map (state_calls d valid partitions index)).flatten).foldl apply_op r := by
  induction s generalizing r with
  | nil => rfl
  | cons x xs ih =>
    simp only [List.foldl_cons, List.map_cons, List.flatten_cons, List.foldl_append]
    rw [emit_state_eq_calls, ih]

theorem emit_blocks_eq_calls (d : DFA) (valid : List state) (partitions : List (state × Nat))
    (l : List (List state)) (index : Nat) (r : DFA) :
    emit_blocks d valid partitions l index r =
      (block_calls d valid partitions l index).foldl apply_op r := by
  induction l generalizing index r with
  | nil => rfl
  | cons s rest ih =>
    simp only [emit_blocks, block_calls, List.foldl_append]
    rw [foldl_emit_state_eq_calls, ih]

theorem mem_block_calls (d : DFA) (valid : List state) (partitions : List (state × Nat))
    (l : List (List state)) (index : Nat) (op : Op) :
    op ∈ block_calls d valid partitions l index ↔
      ∃ (i : Nat) (Y : List state), l[i]? = some Y ∧
        ∃ x : state, x ∈ Y ∧ op ∈ state_calls d valid partitions (index + i) x := by
  induction l generalizing index with
  | nil => simp [block_calls]
  | cons s rest ih =>
    simp only [block_calls, List.mem_append, List.mem_flatten, List.mem_map, ih]
    constructor
    · rintro (⟨l1, ⟨x, hx, rfl⟩, hop⟩ | ⟨i, Y, hi, x, hx, hop⟩)
      · exact ⟨0, s, by simp, x, hx, hop⟩
      · exact ⟨i + 1, Y, by simpa using hi, x, hx, by
          have e : index + (i + 1) = index + 1 + i := by omega
          rw [e]; exact hop⟩
    · rintro ⟨i, Y, hi, x, hx, hop⟩
      cases i with
      | zero =>
        simp only [List.getElem?_cons_zero, Option.some.injEq] at hi
        subst hi
        exact Or.inl ⟨_, ⟨x, hx, rfl⟩, hop⟩
      | succ i =>
        simp only [List.getElem?_cons_succ] at hi
        exact Or.inr ⟨i, Y, hi, x, hx, by
          have e : index + (i + 1) = index + 1 + i := by omega
          rw [← e]; exact hop⟩

theorem mem_edge_calls (valid : List state) (partitions : List (state × Nat)) (index : Nat)
    (vec : List Edge) (op : Op) :
    op ∈ edge_calls valid partitions index vec ↔
      ∃ e : Edge, e ∈ vec ∧ e.next ∈ valid ∧
        op = Op.add_edge index ((mapFind partitions e.next).getD 0) e.transition := by
  induction vec with
  | nil => simp [edge_calls]
  | cons e es ih =>
    simp only [edge_calls]
    split_ifs with h
    · simp only [List.mem_cons, ih]
      constructor
      · rintro (h1 | ⟨e2, h2, h3⟩)
        · exact ⟨e, Or.inl rfl, h, h1⟩
        · exact ⟨e2, Or.inr h2, h3⟩
      · rintro ⟨e2, h2 | h2, h3⟩
        · subst h2; exact Or.inl h3.2
        · exact Or.inr ⟨e2, h2, h3⟩
    · rw [ih]
      constructor
      · rintro ⟨e2, h2, h3⟩
        exact ⟨e2, by simp [h2], h3⟩
      · rintro ⟨e2, h2, h3⟩
        rcases List.mem_cons.1 h2 with h4 | h4
        · subst h4; exact absurd h3.1 h
        · exact ⟨e2, h4, h3⟩

theorem add_edge_mem_state_calls (d : DFA) (valid : List state)
    (partitions : List (state × Nat)) (index : Nat) (x : state) (i j : Nat) (c : letter) :
    Op.add_edge i j c ∈ state_calls d valid partitions index x ↔
      i = index ∧ ∃ e : Edge, e ∈ d.edges x ∧ e.next ∈ valid ∧ e.transition = c ∧
        j = (mapFind partitions e.next).getD 0 := by
  unfold state_calls edges
  have h1 : Op.add_edge i j c ∉ (if x ∈ d.final then [Op.set_final index] else []) := by
    split_ifs <;> simp
  have h2 : Op.add_edge i j c ∉ (if x = d.start then [Op.set_initial index] else []) := by
    split_ifs <;> simp
  simp only [List.mem_append, h1, h2, false_or]
  cases mapFind d.graph x with
  | none => simp
  | some vec =>
    simp only [mem_edge_calls, Option.getD_some, Op.add_edge.injEq]
    constructor
    · rintro ⟨e, he, hv, h3, h4, h5⟩
      exact ⟨h3, e, he, hv, h5.symm, h4⟩
    · rintro ⟨h3, e, he, hv, h5, h4⟩
      exact ⟨e, he, hv, h3, h4, h5.symm⟩

theorem set_final_mem_state_calls (d : DFA) (valid : List state)
    (partitions : List (state × Nat)) (index : Nat) (x : state) (i : Nat) :
    Op.set_final i ∈ state_calls d valid partitions index x ↔ i = index ∧ x ∈ d.final := by
  unfold state_calls
  have h2 : Op.set_final i ∉ (if x = d.start then [Op.set_initial index] else []) := by
    split_ifs <;> simp
  have h3 : Op.set_final i ∉ (match mapFind d.graph x with
      | none => []
      | some vec => edge_calls valid partitions index vec) := by
    cases mapFind d.graph x with
    | none => simp
    | some vec => simp [mem_edge_calls]
  simp only [List.mem_append, h2, h3, or_false]
  split_ifs with h <;> simp [h]

theorem set_initial_mem_state_calls (d : DFA) (valid : List state)
    (partitions : List (state × Nat)) (index : Nat) (x : state) (i : Nat) :
    Op.set_initial i ∈ state_calls d valid partitions index x ↔ i = index ∧ x = d.start := by
  unfold state_calls
  have h1 : Op.set_initial i ∉ (if x ∈ d.final then [Op.set_final index] else []) := by
    split_ifs <;> simp
  have h3 : Op.set_initial i ∉ (match mapFind d.graph x with
      | none => []
      | some vec => edge_calls valid partitions index vec) := by
    cases mapFind d.graph x with
    | none => simp
    | some vec => simp [mem_edge_calls]
  simp only [List.mem_append, h1, h3, or_false, false_or]
  split_ifs with h <;> simp [h]

/-! ## Stability of the partition -/

theorem into_mono (d : DFA) (S T : List state) (c : letter) (q : state)
    (hsub : ∀ n : state, n ∈ S → n ∈ T) (h : Into d S c q) : Into d T c q := by
  obtain ⟨n, h1, h2⟩ := h
  exact ⟨n, h1, hsub n h2⟩

theorem into_alphabet (d : DFA) (S : List state) (c : letter) (q : state)
    (h : Into d S c q) : c ∈ d.alphabet := by
  obtain ⟨n, h1, -⟩ := h
  obtain ⟨e, he, hc, -⟩ := find_edge_some _ _ _ h1
  unfold alphabet
  rw [mem_foldl_setInsert]
  right
  cases hg : mapFind d.graph q with
  | none => simp [edges, hg] at he
  | some vec =>
    simp only [edges, hg, Option.getD_some] at he
    simp only [List.mem_flatten, List.mem_map]
    exact ⟨vec.map (fun e => e.transition), ⟨(q, vec), mem_of_mapFind _ _ _ hg, rfl⟩,
      List.mem_map.2 ⟨e, he, hc⟩⟩

theorem sep_alphabet (d : DFA) (S : List state) (c : letter) (q1 q2 : state)
    (h : Sep d S c q1 q2) : c ∈ d.alphabet := by
  rcases h with ⟨h1, -⟩ | ⟨-, h1⟩
  · exact into_alphabet d S c q1 h1
  · exact into_alphabet d S c q2 h1

theorem sep_halves (d : DFA) (x y : List state) (c : letter) (q1 q2 : state)
    (h : Sep d y c q1 q2) :
    Sep d (intersection x y) c q1 q2 ∨ Sep d (difference y x) c q1 q2 := by
  have hI : ∀ q : state, Into d (intersection x y) c q → Into d y c q :=
    fun q => into_mono d _ _ c q (fun n hn => ((mem_intersection x y n).1 hn).2)
  have hD : ∀ q : state, Into d (difference y x) c q → Into d y c q :=
    fun q => into_mono d _ _ c q (fun n hn => ((mem_difference y x n).1 hn).1)
  rcases h with ⟨⟨n, h1, h2⟩, hb⟩ | ⟨hb, ⟨n, h1, h2⟩⟩
  · by_cases hn : n ∈ x
    · exact Or.inl (Or.inl ⟨⟨n, h1, (mem_intersection x y n).2 ⟨hn, h2⟩⟩, fun h => hb (hI _ h)⟩)
    · exact Or.inr (Or.inl ⟨⟨n, h1, (mem_difference y x n).2 ⟨h2, hn⟩⟩, fun h => hb (hD _ h)⟩)
  · by_cases hn : n ∈ x
    · exact Or.inl (Or.inr ⟨fun h => hb (hI _ h), ⟨n, h1, (mem_intersection x y n).2 ⟨hn, h2⟩⟩⟩)
    · exact Or.inr (Or.inr ⟨fun h => hb (hD _ h), ⟨n, h1, (mem_difference y x n).2 ⟨h2, hn⟩⟩⟩)

theorem mem_split_snd (final valid : List state) (p w : List (List state)) (x y : List state)
    (hinv : PartitionInv final valid p w)
    (h1 : intersection x y ≠ []) (h2 : difference y x ≠ []) :
    (∀ S : List state, S ∈ w → S ≠ y → S ∈ (split_block x (p, w) y).2) ∧
    (y ∈ w → intersection x y ∈ (split_block x (p, w) y).2 ∧
      difference y x ∈ (split_block x (p, w) y).2) ∧
    (intersection x y ∈ (split_block x (p, w) y).2 ∨
      difference y x ∈ (split_block x (p, w) y).2) := by
  rw [split_block_snd x y p w h1 h2]
  split_ifs with hyw hle
  · refine ⟨?_, ?_, ?_⟩
    · intro S hS hne
      rw [mem_ssInsert, mem_ssInsert]
      exact Or.inr (Or.inr (mem_ssErase_of_ne _ _ _ hne hS))
    · intro _
      exact ⟨by rw [mem_ssInsert, mem_ssInsert]; exact Or.inr (Or.inl rfl),
        by rw [mem_ssInsert]; exact Or.inl rfl⟩
    · right
      rw [mem_ssInsert]; exact Or.inl rfl
  · refine ⟨?_, fun h => absurd h hyw, ?_⟩
    · intro S hS _
      rw [mem_ssInsert]; exact Or.inr hS
    · left
      rw [mem_ssInsert]; exact Or.inl rfl
  · refine ⟨?_, fun h => absurd h hyw, ?_⟩
    · intro S hS _
      rw [mem_ssInsert]; exact Or.inr hS
    · right
      rw [mem_ssInsert]; exact Or.inl rfl

theorem sep_same_side (d : DFA) (hk : d.KeysSorted) (hd : d.Deterministic)
    (valid a : List state) (c : letter) (q1 q2 : state) (h1 : q1 ∈ valid) (h2 : q2 ∈ valid)
    (hx : q1 ∈ compute_x valid a c d.graph [] ↔ q2 ∈ compute_x valid a c d.graph []) :
    ¬ Sep d a c q1 q2 := by
  rw [mem_x_iff d hk hd, mem_x_iff d hk hd] at hx
  rintro (⟨ha, hb⟩ | ⟨ha, hb⟩)
  · exact hb (hx.1 ⟨h1, ha⟩).2
  · exact ha (hx.2 ⟨h2, hb⟩).2

theorem stabInv_split (d : DFA) (hk : d.KeysSorted) (hd : d.Deterministic)
    (final valid : List state) (p w : List (List state)) (a : List state)
    (cs : List letter) (c : letter) (y : List state) (ys : List (List state))
    (hinv : PartitionInv final valid p w) (hy : y ∈ p)
    (h : StabInv d p w a cs c (y :: ys)) :
    StabInv d (split_block (compute_x valid a c d.graph []) (p, w) y).1
      (split_block (compute_x valid a c d.graph []) (p, w) y).2 a cs c ys := by
  have hyv : ∀ q : state, q ∈ y → q ∈ valid := hinv.within y hy
  by_cases h1 : intersection (compute_x valid a c d.graph []) y = []
  · rw [split_block_eq_self _ y _ (Or.inl h1)]
    intro Y hY q1 hq1 q2 hq2 c0 B hB hI1 hI2
    rcases h Y hY q1 hq1 q2 hq2 c0 B hB hI1 hI2 with r | r | ⟨hc, hYin, hsep⟩
    · exact Or.inl r
    · exact Or.inr (Or.inl r)
    · rcases List.mem_cons.1 hYin with e | e
      · subst e
        exfalso
        have hout : ∀ q : state, q ∈ Y → q ∉ compute_x valid a c d.graph [] := by
          intro q hq hqx
          have := (mem_intersection _ Y q).2 ⟨hqx, hq⟩
          rw [h1] at this
          simp at this
        exact sep_same_side d hk hd valid a c q1 q2 (hyv q1 hq1) (hyv q2 hq2)
          ⟨fun e => absurd e (hout q1 hq1), fun e => absurd e (hout q2 hq2)⟩ hsep
      · exact Or.inr (Or.inr ⟨hc, e, hsep⟩)
  by_cases h2 : difference y (compute_x valid a c d.graph []) = []
  · rw [split_block_eq_self _ y _ (Or.inr h2)]
    intro Y hY q1 hq1 q2 hq2 c0 B hB hI1 hI2
    rcases h Y hY q1 hq1 q2 hq2 c0 B hB hI1 hI2 with r | r | ⟨hc, hYin, hsep⟩
    · exact Or.inl r
    · exact Or.inr (Or.inl r)
    · rcases List.mem_cons.1 hYin with e | e
      · subst e
        exfalso
        have hin : ∀ q : state, q ∈ Y → q ∈ compute_x valid a c d.graph [] := by
          intro q hq
          by_contra hqx
          have := (mem_difference Y _ q).2 ⟨hq, hqx⟩
          rw [h2] at this
          simp at this
        exact sep_same_side d hk hd valid a c q1 q2 (hyv q1 hq1) (hyv q2 hq2)
          ⟨fun _ => hin q2 hq2, fun _ => hin q1 hq1⟩ hsep
      · exact Or.inr (Or.inr ⟨hc, e, hsep⟩)
  have hmem := mem_split_fst final valid p w _ y hinv h1 h2
  obtain ⟨hw1, hw2, hw3⟩ := mem_split_snd final valid p w _ y hinv h1 h2
  have hsubI : ∀ q : state, q ∈ intersection (compute_x valid a c d.graph []) y → q ∈ y :=
    fun q hq => ((mem_intersection _ y q).1 hq).2
  have hsubD : ∀ q : state, q ∈ difference y (compute_x valid a c d.graph []) → q ∈ y :=
    fun q hq => ((mem_difference y _ q).1 hq).1
  have hpar : ∀ t : List state,
      t ∈ (split_block (compute_x valid a c d.graph []) (p, w) y).1 →
      ∃ Yp : List state, Yp ∈ p ∧ (∀ q : state, q ∈ t → q ∈ Yp) ∧
        ((Yp = y ∧ (t = intersection (compute_x valid a c d.graph []) y ∨
            t = difference y (compute_x valid a c d.graph []))) ∨
          (Yp ≠ y ∧ t = Yp)) := by
    intro t ht
    rcases (hmem t).1 ht with e | e | e
    · exact ⟨y, hy, by rw [e]; exact hsubD, Or.inl ⟨rfl, Or.inr e⟩⟩
    · exact ⟨y, hy, by rw [e]; exact hsubI, Or.inl ⟨rfl, Or.inl e⟩⟩
    · exact ⟨t, e.1, fun q hq => hq, Or.inr ⟨e.2, rfl⟩⟩
  intro Y hY q1 hq1 q2 hq2 c0 B hB hI1 hI2
  obtain ⟨Yp, hYp, hsubY, hYcase⟩ := hpar Y hY
  obtain ⟨Bp, hBp, hsubB, hBcase⟩ := hpar B hB
  have hI1p : Into d Bp c0 q1 := into_mono d B Bp c0 q1 hsubB hI1
  by_cases hI2p : Into d Bp c0 q2
  · rcases hBcase with ⟨hBy, hBh⟩ | ⟨-, hBeq⟩
    · subst hBy
      obtain ⟨n1, hn1, hn1B⟩ := hI1
      obtain ⟨n2, hn2, hn2B⟩ := hI2p
      have hn2not : n2 ∉ B := fun e => hI2 ⟨n2, hn2, e⟩
      left
      rcases hBh with e | e
      · have hn1x := ((mem_intersection _ Bp n1).1 (e ▸ hn1B)).1
        have hn2x : n2 ∉ compute_x valid a c d.graph [] := by
          intro hx
          exact hn2not (e ▸ (mem_intersection _ Bp n2).2 ⟨hx, hn2B⟩)
        rcases hw3 with m | m
        · exact ⟨_, m, Or.inl ⟨⟨n1, hn1, e ▸ hn1B⟩, fun hh => hI2 (e ▸ hh)⟩⟩
        · refine ⟨_, m, Or.inr ⟨?_, ⟨n2, hn2, (mem_difference Bp _ n2).2 ⟨hn2B, hn2x⟩⟩⟩⟩
          rintro ⟨n, hn, hnD⟩
          rw [hn1] at hn
          cases hn
          exact ((mem_difference Bp _ n1).1 hnD).2 hn1x
      · have hn1x := ((mem_difference Bp _ n1).1 (e ▸ hn1B)).2
        have hn2x : n2 ∈ compute_x valid a c d.graph [] := by
          by_contra hx
          exact hn2not (e ▸ (mem_difference Bp _ n2).2 ⟨hn2B, hx⟩)
        rcases hw3 with m | m
        · refine ⟨_, m, Or.inr ⟨?_, ⟨n2, hn2, (mem_intersection _ Bp n2).2 ⟨hn2x, hn2B⟩⟩⟩⟩
          rintro ⟨n, hn, hnI⟩
          rw [hn1] at hn
          cases hn
          exact hn1x ((mem_intersection _ Bp n1).1 hnI).1
        · exact ⟨_, m, Or.inl ⟨⟨n1, hn1, e ▸ hn1B⟩, fun hh => hI2 (e ▸ hh)⟩⟩
    · rw [hBeq] at hI2
      exact absurd hI2p hI2
  · rcases h Yp hYp q1 (hsubY q1 hq1) q2 (hsubY q2 hq2) c0 Bp hBp hI1p hI2p with
      ⟨S, hS, hsep⟩ | r | ⟨hc, hYin, hsep⟩
    · left
      by_cases hSy : S = y
      · subst hSy
        obtain ⟨m1, m2⟩ := hw2 hS
        rcases sep_halves d (compute_x valid a c d.graph []) S c0 q1 q2 hsep with s | s
        · exact ⟨_, m1, s⟩
        · exact ⟨_, m2, s⟩
      · exact ⟨S, hw1 S hS hSy, hsep⟩
    · exact Or.inr (Or.inl r)
    · rcases hYcase with ⟨hYy, hYh⟩ | ⟨hYne, hYeq⟩
      · exfalso
        subst hYy
        apply sep_same_side d hk hd valid a c q1 q2 (hyv q1 (hsubY q1 hq1))
          (hyv q2 (hsubY q2 hq2)) _ hsep
        rcases hYh with e | e
        · rw [e] at hq1 hq2
          exact ⟨fun _ => ((mem_intersection _ Yp q2).1 hq2).1,
            fun _ => ((mem_intersection _ Yp q1).1 hq1).1⟩
        · rw [e] at hq1 hq2
          exact ⟨fun hh => absurd hh ((mem_difference Yp _ q1).1 hq1).2,
            fun hh => absurd hh ((mem_difference Yp _ q2).1 hq2).2⟩
      · right; right
        refine ⟨hc, ?_, hsep⟩
        rcases List.mem_cons.1 hYin with e | e
        · exact absurd e hYne
        · rw [hYeq]; exact e

theorem final_partition_stable (d : DFA) (hk : d.KeysSorted) (hd : d.Deterministic)
    (valid : List state) (hv : d.valid_states = some valid) :
    ∃ P : List (List state), d.final_partition = some P ∧
      PartitionInv d.final valid P [] ∧
      ∀ Y : List state, Y ∈ P → ∀ q1 : state, q1 ∈ Y → ∀ q2 : state, q2 ∈ Y →
        ∀ (c : letter) (B : List state), B ∈ P → Into d B c q1 → Into d B c q2 := by
  obtain ⟨P, a1, c1, hP, hinv, hq⟩ := final_partition_spec d valid hv
    (fun p w a pend c ys => StabInv d p w a pend c ys)
    (fun p w a a0 c0 _ h => by
      intro Y hY q1 hq1 q2 hq2 c B hB hI1 hI2
      rcases h Y hY q1 hq1 q2 hq2 c B hB hI1 hI2 with ⟨S, hS, hsep⟩ | ⟨hc, -⟩ | ⟨-, hYin, -⟩
      · rcases List.mem_cons.1 hS with e | e
        · subst e
          exact Or.inr (Or.inl ⟨sep_alphabet d S c q1 q2 hsep, hsep⟩)
        · exact Or.inl ⟨S, e, hsep⟩
      · simp at hc
      · simp at hYin)
    (fun p w a c cs c0 _ h => by
      intro Y hY q1 hq1 q2 hq2 c2 B hB hI1 hI2
      rcases h Y hY q1 hq1 q2 hq2 c2 B hB hI1 hI2 with r | ⟨hc, hsep⟩ | ⟨-, hYin, -⟩
      · exact Or.inl r
      · rcases List.mem_cons.1 hc with e | e
        · subst e
          exact Or.inr (Or.inr ⟨rfl, hY, hsep⟩)
        · exact Or.inr (Or.inl ⟨e, hsep⟩)
      · simp at hYin)
    (fun p w a cs c y ys hpi hy _ _ h =>
      stabInv_split d hk hd d.final valid p w a cs c y ys hpi hy h)
    [] 0
    (by
      intro Y hY q1 hq1 q2 hq2 c B hB hI1 hI2
      exact Or.inl ⟨B, hB, Or.inl ⟨hI1, hI2⟩⟩)
  refine ⟨P, hP, hinv, ?_⟩
  intro Y hY q1 hq1 q2 hq2 c B hB hI1
  by_contra hI2
  rcases hq Y hY q1 hq1 q2 hq2 c B hB hI1 hI2 with ⟨S, hS, -⟩ | ⟨hc, -⟩ | ⟨-, hYin, -⟩
  · simp at hS
  · simp at hc
  · simp at hYin

/-! ## The edges of the result -/

theorem block_of_valid (final valid : List state) (P : List (List state))
    (hinv : PartitionInv final valid P []) (n : state) (hn : n ∈ valid) :
    ∃ (k : Nat) (B : List state), P[k]? = some B ∧ n ∈ B ∧
      mapFind (number_blocks P 0 []) n = some k := by
  obtain ⟨B, hB, hnB⟩ := hinv.cover n hn
  obtain ⟨k, hk⟩ := List.getElem?_of_mem hB
  exact ⟨k, B, hk, hnB, number_blocks_spec final valid P hinv n k B hk hnB⟩

theorem add_edge_mem_calls (d : DFA) (hd : d.Deterministic) (valid : List state)
    (P : List (List state)) (hinv : PartitionInv d.final valid P [])
    (i j : Nat) (c : letter) :
    Op.add_edge i j c ∈ block_calls d valid (number_blocks P 0 []) P 0 ↔
      ∃ (Y B : List state) (x n : state), P[i]? = some Y ∧ x ∈ Y ∧
        find_edge (d.edges x) c = some n ∧ n ∈ valid ∧ P[j]? = some B ∧ n ∈ B := by
  rw [mem_block_calls]
  constructor
  · rintro ⟨k, Y, hk, x, hx, hop⟩
    rw [add_edge_mem_state_calls] at hop
    obtain ⟨hi, e, he, hev, hec, hj⟩ := hop
    rw [Nat.zero_add] at hi
    subst hi
    obtain ⟨k2, B, hk2, hnB, hnum⟩ := block_of_valid d.final valid P hinv e.next hev
    rw [hnum, Option.getD_some] at hj
    subst hj
    refine ⟨Y, B, x, e.next, hk, hx, ?_, hev, hk2, hnB⟩
    rw [← hec]
    exact find_edge_of_mem _ e (hd x) he
  · rintro ⟨Y, B, x, n, hi, hx, hf, hn, hj, hnB⟩
    refine ⟨i, Y, hi, x, hx, ?_⟩
    rw [add_edge_mem_state_calls]
    obtain ⟨e, he, hec, hen⟩ := find_edge_some _ _ _ hf
    refine ⟨by omega, e, he, by rw [hen]; exact hn, hec, ?_⟩
    rw [hen, number_blocks_spec d.final valid P hinv n j B hj hnB, Option.getD_some]

theorem index_unique (final valid : List state) (P : List (List state))
    (hinv : PartitionInv final valid P []) (n : state) (j1 j2 : Nat) (B1 B2 : List state)
    (h1 : P[j1]? = some B1) (h2 : P[j2]? = some B2) (m1 : n ∈ B1) (m2 : n ∈ B2) :
    j1 = j2 := by
  have e1 := number_blocks_spec final valid P hinv n j1 B1 h1 m1
  have e2 := number_blocks_spec final valid P hinv n j2 B2 h2 m2
  rw [e1] at e2
  exact Option.some.inj e2

/-- Claim C14. For an automaton built by calls of the mutators, when the worklist loop
of `minimize` has ended, two states of one block of the final partition agree for every
letter `c` and every block `B`: one has an edge with letter `c` into (a valid state of)
`B` exactly when the other has, and one has an edge with letter `c` into a valid state
exactly when the other has. Hence the calls of `add_edge` made for one block and one
letter while the result is built all carry the same destination block, and the result is
the automaton built by these calls. -/
theorem final_partition_is_stable (s0 : state) (ops : List Op) :
    ∃ (valid : List state) (P : List (List state)),
      (build s0 ops).valid_states = some valid ∧
      (build s0 ops).final_partition = some P ∧
      (∀ Y : List state, Y ∈ P → ∀ q1 : state, q1 ∈ Y → ∀ q2 : state, q2 ∈ Y →
        ∀ (c : letter) (B : List state), B ∈ P →
          (Into (build s0 ops) B c q1 ↔ Into (build s0 ops) B c q2)) ∧
      (∀ Y : List state, Y ∈ P → ∀ q1 : state, q1 ∈ Y → ∀ q2 : state, q2 ∈ Y →
        ∀ c : letter,
          (Into (build s0 ops) valid c q1 ↔ Into (build s0 ops) valid c q2)) ∧
      (∀ (i j1 j2 : Nat) (c : letter),
        Op.add_edge i j1 c ∈ block_calls (build s0 ops) valid (number_blocks P 0 []) P 0 →
        Op.add_edge i j2 c ∈ block_calls (build s0 ops) valid (number_blocks P 0 []) P 0 →
        j1 = j2) ∧
      minimize s0 (build s0 ops) =
        some (build s0 (block_calls (build s0 ops) valid (number_blocks P 0 []) P 0)) := by
  obtain ⟨valid, hv, -⟩ := valid_states_some (build s0 ops)
  have hd := deterministic_build s0 ops
  obtain ⟨P, hP, hinv, hstab⟩ :=
    final_partition_stable (build s0 ops) (keysSorted_build s0 ops) hd valid hv
  have hvalid : ∀ Y : List state, Y ∈ P → ∀ q1 : state, q1 ∈ Y → ∀ q2 : state, q2 ∈ Y →
      ∀ c : letter, Into (build s0 ops) valid c q1 → Into (build s0 ops) valid c q2 := by
    intro Y hY q1 hq1 q2 hq2 c ⟨n, hn, hnv⟩
    obtain ⟨B, hB, hnB⟩ := hinv.cover n hnv
    exact into_mono _ B valid c q2 (hinv.within B hB)
      (hstab Y hY q1 hq1 q2 hq2 c B hB ⟨n, hn, hnB⟩)
  refine ⟨valid, P, hv, hP, ?_, ?_, ?_, ?_⟩
  · intro Y hY q1 hq1 q2 hq2 c B hB
    exact ⟨hstab Y hY q1 hq1 q2 hq2 c B hB, hstab Y hY q2 hq2 q1 hq1 c B hB⟩
  · intro Y hY q1 hq1 q2 hq2 c
    exact ⟨hvalid Y hY q1 hq1 q2 hq2 c, hvalid Y hY q2 hq2 q1 hq1 c⟩
  · intro i j1 j2 c h1 h2
    rw [add_edge_mem_calls _ hd valid P hinv] at h1 h2
    obtain ⟨Y1, B1, x1, n1, hi1, hx1, hf1, -, hj1, hnB1⟩ := h1
    obtain ⟨Y2, B2, x2, n2, hi2, hx2, hf2, -, hj2, hnB2⟩ := h2
    rw [hi1] at hi2
    cases hi2
    have hY : Y1 ∈ P := List.mem_iff_getElem?.2 ⟨i, hi1⟩
    have hB1 : B1 ∈ P := List.mem_iff_getElem?.2 ⟨j1, hj1⟩
    obtain ⟨n, hn, hnB⟩ := hstab Y1 hY x1 hx1 x2 hx2 c B1 hB1 ⟨n1, hf1, hnB1⟩
    rw [hf2] at hn
    cases hn
    exact index_unique _ valid P hinv n2 j1 j2 B1 B2 hj1 hj2 hnB hnB2
  · simp only [minimize, hv, hP, emit_blocks_eq_calls]
    rfl

/-! ## Automata built without redirecting an edge -/

theorem transposed_add_edge (d : DFA) (a b : state) (s : letter) (h : Transposed d)
    (hs : s ∉ letters_of (d.edges a)) : Transposed (d.add_edge a b s) := by
  have hov := (overwrite_eq_none (d.edges a) b s).2 hs
  have hpreds : ∀ q : state, (d.add_edge a b s).preds q =
      if q = b then d.preds b ++ [a] else d.preds q := by
    intro q
    unfold add_edge
    rw [hov]
    simp only [preds, mapFind_mapSet]
    split_ifs <;> simp
  have hedges : ∀ q : state, (d.add_edge a b s).edges q =
      if q = a then d.edges a ++ [{ next := b, transition := s }] else d.edges q := by
    intro q
    rw [edges_add_edge, hov]
  intro a2 b2
  rw [hpreds]
  unfold Step
  rw [hedges]
  have h0 := h a2 b2
  unfold Step at h0
  by_cases hb : b2 = b <;> by_cases ha : a2 = a
  · subst hb; subst ha
    simp only [if_true, List.mem_append, List.mem_singleton, or_true, true_iff]
    exact ⟨{ next := b2, transition := s }, Or.inr rfl, rfl⟩
  · subst hb
    simp only [if_true, if_neg ha, List.mem_append, List.mem_singleton, ha, or_false]
    exact h0
  · subst ha
    simp only [if_neg hb, if_true, List.mem_append, List.mem_singleton]
    rw [h0]
    constructor
    · rintro ⟨e, he, hn⟩
      exact ⟨e, Or.inl he, hn⟩
    · rintro ⟨e, he | he, hn⟩
      · exact ⟨e, he, hn⟩
      · subst he
        exact absurd hn.symm hb
  · simp only [if_neg hb, if_neg ha]
    exact h0

theorem letters_add_edge_fresh (d : DFA) (a b : state) (s : letter)
    (hs : s ∉ letters_of (d.edges a)) (q : state) :
    letters_of ((d.add_edge a b s).edges q) =
      if q = a then letters_of (d.edges a) ++ [s] else letters_of (d.edges q) := by
  rw [edges_add_edge, (overwrite_eq_none (d.edges a) b s).2 hs]
  split_ifs
  · simp [letters_of]
  · rfl

theorem transposed_foldl (ops : List Op) (d : DFA) (h : Transposed d)
    (hnd : (call_keys ops).Nodup)
    (hfresh : ∀ (a : state) (s : letter), (a, s) ∈ call_keys ops →
      s ∉ letters_of (d.edges a)) :
    Transposed (ops.foldl apply_op d) := by
  induction ops generalizing d with
  | nil => exact h
  | cons op rest ih =>
    cases op with
    | add_edge a b s =>
      simp only [call_keys, List.nodup_cons] at hnd
      have hs : s ∉ letters_of (d.edges a) := hfresh a s (by simp [call_keys])
      apply ih _ (transposed_add_edge d a b s h hs) hnd.2
      intro a2 s2 hmem
      have hold := hfresh a2 s2 (by simp [call_keys, hmem])
      rw [letters_add_edge_fresh d a b s hs]
      split_ifs with ha
      · subst ha
        simp only [List.mem_append, List.mem_singleton, not_or]
        refine ⟨hold, ?_⟩
        intro e
        subst e
        exact hnd.1 hmem
      · exact hold
    | set_initial q =>
      exact ih _ h hnd (fun a s hm => hfresh a s hm)
    | set_final q =>
      exact ih _ h hnd (fun a s hm => hfresh a s hm)

theorem transposed_build (s0 : state) (ops : List Op) (hnd : (call_keys ops).Nodup) :
    Transposed (build s0 ops) := by
  apply transposed_foldl ops _ _ hnd
  · intro a s _
    simp [empty, edges, mapFind, letters_of]
  · intro a b
    simp [empty, preds, Step, edges, mapFind]

theorem valid_states_exact (d : DFA) (ht : Transposed d) (valid : List state)
    (hv : d.valid_states = some valid) (q : state) :
    q ∈ valid ↔ (∃ f : state, f ∈ d.final ∧ Path d q f) ∧ Path d d.start q := by
  obtain ⟨valid2, hv2, -, hchar⟩ := valid_states_some d
  rw [hv] at hv2
  cases hv2
  rw [hchar]
  have hrel : Nbr (fun here => mapFind d.transposed here) = Function.swap (Step d) := by
    funext b a
    apply propext
    rw [Function.swap, ← ht a b]
    unfold Nbr preds
    cases hm : mapFind d.transposed b with
    | none => simp [hm]
    | some vec => simp [hm]
  rw [hrel]
  constructor
  · rintro ⟨⟨f, hf, hp⟩, hr⟩
    exact ⟨⟨f, hf, Relation.reflTransGen_swap.1 hp⟩, hr⟩
  · rintro ⟨⟨f, hf, hp⟩, hr⟩
    exact ⟨⟨f, hf, Relation.reflTransGen_swap.2 hp⟩, hr⟩

/-! ## The automaton built by a sequence of calls -/

theorem find_edge_overwrite (vec vec2 : List Edge) (b : state) (s c : letter)
    (h : overwrite vec b s = some vec2) :
    find_edge vec2 c = if c = s then some b else find_edge vec c := by
  induction vec generalizing vec2 with
  | nil => simp [overwrite] at h
  | cons e es ih =>
    simp only [overwrite] at h
    split_ifs at h with h1
    · cases h
      simp only [find_edge, h1]
      by_cases hc : s = c
      · simp [hc]
      · have hc2 : ¬ c = s := fun e => hc e.symm
        simp [hc, hc2]
    · cases h2 : overwrite es b s with
      | none => simp [h2] at h
      | some r =>
        simp [h2] at h
        subst h
        simp only [find_edge]
        by_cases hc : e.transition = c
        · have : c ≠ s := fun e2 => h1 (hc.trans e2)
          simp [hc, this]
        · simp only [hc, if_false]
          exact ih r h2

theorem find_edge_append_new (vec : List Edge) (b : state) (s c : letter)
    (hs : s ∉ letters_of vec) :
    find_edge (vec ++ [{ next := b, transition := s }]) c =
      if c = s then some b else find_edge vec c := by
  induction vec with
  | nil =>
    simp only [List.nil_append, find_edge]
    by_cases hc : s = c
    · simp [hc]
    · have hc2 : ¬ c = s := fun e => hc e.symm
      simp [hc, hc2]
  | cons e es ih =>
    simp only [letters_of, List.map_cons, List.mem_cons, not_or] at hs
    simp only [List.cons_append, find_edge]
    by_cases hc : e.transition = c
    · have : c ≠ s := fun e2 => hs.1 (e2.symm.trans hc.symm)
      simp [hc, this]
    · simp only [hc, if_false]
      exact ih hs.2

theorem find_edge_add_edge (d : DFA) (a b : state) (s : letter) (q : state) (c : letter) :
    find_edge ((d.add_edge a b s).edges q) c =
      if q = a ∧ c = s then some b else find_edge (d.edges q) c := by
  rw [edges_add_edge]
  by_cases hq : q = a
  · subst hq
    simp only [if_true, true_and]
    cases h : overwrite (d.edges q) b s with
    | none => exact find_edge_append_new _ b s c ((overwrite_eq_none _ b s).1 h)
    | some vec => exact find_edge_overwrite _ vec b s c h
  · simp [hq]

theorem find_edge_foldl_absent (L : List Op) (r : DFA) (i : state) (c : letter)
    (h : ∀ j : state, Op.add_edge i j c ∉ L) :
    find_edge ((L.foldl apply_op r).edges i) c = find_edge (r.edges i) c := by
  induction L generalizing r with
  | nil => rfl
  | cons op rest ih =>
    simp only [List.foldl_cons]
    rw [ih _ (fun j hj => h j (by simp [hj]))]
    cases op with
    | add_edge a b s =>
      simp only [apply_op]
      rw [find_edge_add_edge, if_neg]
      rintro ⟨e1, e2⟩
      subst e1; subst e2
      exact h b (by simp)
    | set_initial q => rfl
    | set_final q => rfl

theorem find_edge_foldl_present (L : List Op) (r : DFA) (i j : state) (c : letter)
    (hmem : Op.add_edge i j c ∈ L)
    (hcons : ∀ j1 j2 : state, Op.add_edge i j1 c ∈ L → Op.add_edge i j2 c ∈ L → j1 = j2) :
    find_edge ((L.foldl apply_op r).edges i) c = some j := by
  induction L generalizing r with
  | nil => simp at hmem
  | cons op rest ih =>
    simp only [List.foldl_cons]
    by_cases hrest : Op.add_edge i j c ∈ rest
    · exact ih _ hrest (fun j1 j2 h1 h2 => hcons j1 j2 (by simp [h1]) (by simp [h2]))
    · have hop : op = Op.add_edge i j c := by
        rcases List.mem_cons.1 hmem with e | e
        · exact e.symm
        · exact absurd e hrest
      subst hop
      rw [find_edge_foldl_absent]
      · simp only [apply_op]
        rw [find_edge_add_edge, if_pos ⟨rfl, rfl⟩]
      · intro j2 hj2
        have := hcons j j2 (by simp) (by simp [hj2])
        subst this
        exact hrest hj2

theorem mem_final_foldl (L : List Op) (r : DFA) (q : state) :
    q ∈ (L.foldl apply_op r).final ↔ q ∈ r.final ∨ Op.set_final q ∈ L := by
  induction L generalizing r with
  | nil => simp
  | cons op rest ih =>
    simp only [List.foldl_cons, ih, List.mem_cons]
    cases op with
    | add_edge a b s =>
      have : (apply_op r (Op.add_edge a b s)).final = r.final := by
        simp only [apply_op, add_edge]
        cases overwrite (r.edges a) b s <;> rfl
      rw [this]
      simp
    | set_initial q2 =>
      have : (apply_op r (Op.set_initial q2)).final = r.final := rfl
      rw [this]
      simp
    | set_final q2 =>
      have : (apply_op r (Op.set_final q2)).final = setInsert r.final q2 := rfl
      rw [this, mem_setInsert]
      simp only [Op.set_final.injEq]
      tauto

theorem start_foldl_absent (L : List Op) (r : DFA)
    (h : ∀ i : state, Op.set_initial i ∉ L) : (L.foldl apply_op r).start = r.start := by
  induction L generalizing r with
  | nil => rfl
  | cons op rest ih =>
    simp only [List.foldl_cons]
    rw [ih _ (fun i hi => h i (by simp [hi]))]
    cases op with
    | add_edge a b s =>
      simp only [apply_op, add_edge]
      cases overwrite (r.edges a) b s <;> rfl
    | set_initial q2 => exact absurd (List.mem_cons_self _ _) (h q2)
    | set_final q2 => rfl

theorem start_foldl_present (L : List Op) (r : DFA) (i : state)
    (hmem : Op.set_initial i ∈ L)
    (hcons : ∀ i2 : state, Op.set_initial i2 ∈ L → i2 = i) :
    (L.foldl apply_op r).start = i := by
  induction L generalizing r with
  | nil => simp at hmem
  | cons op rest ih =>
    simp only [List.foldl_cons]
    by_cases hrest : Op.set_initial i ∈ rest
    · exact ih _ hrest (fun i2 h2 => hcons i2 (by simp [h2]))
    · have hop : op = Op.set_initial i := by
        rcases List.mem_cons.1 hmem with e | e
        · exact e.symm
        · exact absurd e hrest
      subst hop
      rw [start_foldl_absent]
      · rfl
      · intro i2 hi2
        have := hcons i2 (by simp [hi2])
        subst this
        exact hrest hi2

/-! ## The language of the result -/

theorem valid_from_cons (d : DFA) (q : state) (c : letter) (w : List letter) :
    valid_from d q (c :: w) =
      match find_edge (d.edges q) c with
      | none => false
      | some n => valid_from d n w := by
  simp only [valid_from, edges]
  cases mapFind d.graph q with
  | none => simp [find_edge]
  | some vec => rfl

theorem step_of_find_edge (d : DFA) (q n : state) (c : letter)
    (h : find_edge (d.edges q) c = some n) : Step d q n := by
  obtain ⟨e, he, -, hn⟩ := find_edge_some _ _ _ h
  exact ⟨e, he, hn⟩

theorem valid_from_path (d : DFA) (w : List letter) (q : state)
    (h : valid_from d q w = true) : ∃ f : state, f ∈ d.final ∧ Path d q f := by
  induction w generalizing q with
  | nil =>
    simp only [valid_from, decide_eq_true_eq] at h
    exact ⟨q, h, Relation.ReflTransGen.refl⟩
  | cons c w ih =>
    rw [valid_from_cons] at h
    cases hf : find_edge (d.edges q) c with
    | none => simp [hf] at h
    | some n =>
      simp only [hf] at h
      obtain ⟨f, hfin, hp⟩ := ih n h
      exact ⟨f, hfin, Relation.ReflTransGen.head (step_of_find_edge d q n c hf) hp⟩

theorem calls_consistent (d : DFA) (hd : d.Deterministic) (valid : List state)
    (P : List (List state)) (hinv : PartitionInv d.final valid P [])
    (hstab : ∀ Y : List state, Y ∈ P → ∀ q1 : state, q1 ∈ Y → ∀ q2 : state, q2 ∈ Y →
      ∀ (c : letter) (B : List state), B ∈ P → Into d B c q1 → Into d B c q2)
    (i j1 j2 : Nat) (c : letter)
    (h1 : Op.add_edge i j1 c ∈ block_calls d valid (number_blocks P 0 []) P 0)
    (h2 : Op.add_edge i j2 c ∈ block_calls d valid (number_blocks P 0 []) P 0) :
    j1 = j2 := by
  rw [add_edge_mem_calls d hd valid P hinv] at h1 h2
  obtain ⟨Y1, B1, x1, n1, hi1, hx1, hf1, -, hj1, hnB1⟩ := h1
  obtain ⟨Y2, B2, x2, n2, hi2, hx2, hf2, -, hj2, hnB2⟩ := h2
  rw [hi1] at hi2
  cases hi2
  have hY : Y1 ∈ P := List.mem_iff_getElem?.2 ⟨i, hi1⟩
  have hB1 : B1 ∈ P := List.mem_iff_getElem?.2 ⟨j1, hj1⟩
  obtain ⟨n, hn, hnB⟩ := hstab Y1 hY x1 hx1 x2 hx2 c B1 hB1 ⟨n1, hf1, hnB1⟩
  rw [hf2] at hn
  cases hn
  exact index_unique _ valid P hinv n2 j1 j2 B1 B2 hj1 hj2 hnB hnB2

theorem result_no_edge (d : DFA) (hd : d.Deterministic) (valid : List state)
    (P : List (List state)) (hinv : PartitionInv d.final valid P [])
    (hstab : ∀ Y : List state, Y ∈ P → ∀ q1 : state, q1 ∈ Y → ∀ q2 : state, q2 ∈ Y →
      ∀ (c : letter) (B : List state), B ∈ P → Into d B c q1 → Into d B c q2)
    (s0 : state) (i : Nat) (Y : List state) (q : state) (c : letter)
    (hi : P[i]? = some Y) (hq : q ∈ Y)
    (hno : ∀ n : state, find_edge (d.edges q) c = some n → n ∉ valid) :
    find_edge (((block_calls d valid (number_blocks P 0 []) P 0).foldl apply_op
      (empty s0)).edges i) c = none := by
  rw [find_edge_foldl_absent]
  · simp [empty, edges, mapFind, find_edge]
  · intro j hj
    rw [add_edge_mem_calls d hd valid P hinv] at hj
    obtain ⟨Y1, B, x, n, hi1, hx, hf, hnv, hjB, hnB⟩ := hj
    rw [hi] at hi1
    cases hi1
    have hY : Y ∈ P := List.mem_iff_getElem?.2 ⟨i, hi⟩
    have hB : B ∈ P := List.mem_iff_getElem?.2 ⟨j, hjB⟩
    obtain ⟨n2, hn2, hn2B⟩ := hstab Y hY x hx q hq c B hB ⟨n, hf, hnB⟩
    exact hno n2 hn2 (hinv.within B hB n2 hn2B)

theorem result_simulates (d : DFA) (hd : d.Deterministic) (ht : Transposed d)
    (valid : List state) (hv : d.valid_states = some valid)
    (P : List (List state)) (hinv : PartitionInv d.final valid P [])
    (hstab : ∀ Y : List state, Y ∈ P → ∀ q1 : state, q1 ∈ Y → ∀ q2 : state, q2 ∈ Y →
      ∀ (c : letter) (B : List state), B ∈ P → Into d B c q1 → Into d B c q2)
    (s0 : state) (w : List letter) :
    ∀ (q : state) (i : Nat) (Y : List state), P[i]? = some Y → q ∈ Y →
      valid_from d q w =
        valid_from ((block_calls d valid (number_blocks P 0 []) P 0).foldl apply_op
          (empty s0)) i w := by
  induction w with
  | nil =>
    intro q i Y hi hq
    simp only [valid_from]
    apply decide_eq_decide.2
    rw [mem_final_foldl]
    have hY : Y ∈ P := List.mem_iff_getElem?.2 ⟨i, hi⟩
    constructor
    · intro hfin
      right
      rw [mem_block_calls]
      exact ⟨i, Y, hi, q, hq, by
        rw [set_final_mem_state_calls]; exact ⟨by omega, hfin⟩⟩
    · rintro (h | h)
      · simp [empty] at h
      · rw [mem_block_calls] at h
        obtain ⟨k, Y2, hk, x, hx, hop⟩ := h
        rw [set_final_mem_state_calls] at hop
        have hik : i = k := by omega
        subst hik
        rw [hi] at hk
        cases hk
        rcases hinv.homogeneous Y hY with a | a
        · exact a q hq
        · exact absurd hop.2 (a x hx)
  | cons c w ih =>
    intro q i Y hi hq
    have hY : Y ∈ P := List.mem_iff_getElem?.2 ⟨i, hi⟩
    have hqv : q ∈ valid := hinv.within Y hY q hq
    rw [valid_from_cons, valid_from_cons]
    cases hf : find_edge (d.edges q) c with
    | none =>
      rw [result_no_edge d hd valid P hinv hstab s0 i Y q c hi hq
        (fun n hn => by rw [hf] at hn; cases hn)]
    | some n =>
      by_cases hn : n ∈ valid
      · obtain ⟨j, B, hj, hnB, -⟩ := block_of_valid d.final valid P hinv n hn
        have hcall : Op.add_edge i j c ∈ block_calls d valid (number_blocks P 0 []) P 0 :=
          (add_edge_mem_calls d hd valid P hinv i j c).2 ⟨Y, B, q, n, hi, hq, hf, hn, hj, hnB⟩
        rw [find_edge_foldl_present _ _ i j c hcall
          (fun j1 j2 => calls_consistent d hd valid P hinv hstab i j1 j2 c)]
        exact ih n j B hj hnB
      · rw [result_no_edge d hd valid P hinv hstab s0 i Y q c hi hq
          (fun n2 hn2 => by rw [hf] at hn2; cases hn2; exact hn)]
        simp only
        by_contra hacc
        rw [Bool.not_eq_false] at hacc
        obtain ⟨f, hfin, hp⟩ := valid_from_path d w n hacc
        apply hn
        rw [valid_states_exact d ht valid hv]
        exact ⟨⟨f, hfin, hp⟩,
          Relation.ReflTransGen.tail ((valid_states_exact d ht valid hv q).1 hqv).2
            (step_of_find_edge d q n c hf)⟩

/-- Claim C18. For an automaton built by a sequence of calls in which no two calls of
`add_edge` have the same source state and letter, `transposed` is exactly the transpose
of `graph`, `minimize` returns a result, and the result accepts exactly the words that
the automaton accepts. -/
theorem minimize_preserves_language (s0 : state) (ops : List Op)
    (h : (call_keys ops).Nodup) :
    Transposed (build s0 ops) ∧
    ∃ r : DFA, minimize s0 (build s0 ops) = some r ∧
      ∀ w : List letter, (build s0 ops).valid w = r.valid w := by
  have ht := transposed_build s0 ops h
  have hd := deterministic_build s0 ops
  obtain ⟨valid, hv, -⟩ := valid_states_some (build s0 ops)
  obtain ⟨P, hP, hinv, hstab⟩ :=
    final_partition_stable (build s0 ops) (keysSorted_build s0 ops) hd valid hv
  refine ⟨ht, (block_calls (build s0 ops) valid (number_blocks P 0 []) P 0).foldl apply_op
    (empty s0), ?_, ?_⟩
  · simp only [minimize, hv, hP, emit_blocks_eq_calls]
  intro w
  unfold FA.DFA.valid
  by_cases hs : (build s0 ops).start ∈ valid
  · obtain ⟨i, Y, hi, hsY, -⟩ := block_of_valid _ valid P hinv _ hs
    have hstart : ((block_calls (build s0 ops) valid (number_blocks P 0 []) P 0).foldl
        apply_op (empty s0)).start = i := by
      apply start_foldl_present
      · rw [mem_block_calls]
        exact ⟨i, Y, hi, _, hsY, by
          rw [set_initial_mem_state_calls]; exact ⟨by omega, rfl⟩⟩
      · intro i2 h2
        rw [mem_block_calls] at h2
        obtain ⟨k, Y2, hk, x, hx, hop⟩ := h2
        rw [set_initial_mem_state_calls] at hop
        obtain ⟨e1, e2⟩ := hop
        subst e2
        have hki := index_unique _ valid P hinv _ k i Y2 Y hk hi hx hsY
        rw [e1, Nat.zero_add]
        exact hki
    rw [hstart]
    exact result_simulates _ hd ht valid hv P hinv hstab s0 w _ i Y hi hsY
  · have hleft : valid_from (build s0 ops) (build s0 ops).start w = false := by
      by_contra hacc
      rw [Bool.not_eq_false] at hacc
      obtain ⟨f, hfin, hp⟩ := valid_from_path _ w _ hacc
      exact hs ((valid_states_exact _ ht valid hv _).2
        ⟨⟨f, hfin, hp⟩, Relation.ReflTransGen.refl⟩)
    have hfinal : ((block_calls (build s0 ops) valid (number_blocks P 0 []) P 0).foldl
        apply_op (empty s0)).final = [] := by
      rw [List.eq_nil_iff_forall_not_mem]
      intro j hj
      rw [mem_final_foldl] at hj
      rcases hj with hj | hj
      · simp [empty] at hj
      · rw [mem_block_calls] at hj
        obtain ⟨k, Y2, hk, x, hx, hop⟩ := hj
        rw [set_final_mem_state_calls] at hop
        have hxv : x ∈ valid := hinv.within Y2 (List.mem_iff_getElem?.2 ⟨k, hk⟩) x hx
        have hpx := ((valid_states_exact _ ht valid hv x).1 hxv).2
        exact hs ((valid_states_exact _ ht valid hv _).2
          ⟨⟨x, hop.2, hpx⟩, Relation.ReflTransGen.refl⟩)
    rw [hleft, valid_from_no_final _ hfinal]

/-- Claim C18 at the automaton of the scenario, whose five calls of `add_edge` have
pairwise different pairs of source state and letter. -/
theorem minimize_preserves_language_witness :
    (call_keys [Op.add_edge 0 1 97, Op.add_edge 1 2 98, Op.add_edge 2 2 97,
      Op.add_edge 2 2 98, Op.add_edge 3 3 97, Op.set_initial 0, Op.set_final 2]).Nodup ∧
    ∃ r : DFA, minimize 0 (build 0 [Op.add_edge 0 1 97, Op.add_edge 1 2 98,
        Op.add_edge 2 2 97, Op.add_edge 2 2 98, Op.add_edge 3 3 97, Op.set_initial 0,
        Op.set_final 2]) = some r ∧
      ∀ w : List letter, (build 0 [Op.add_edge 0 1 97, Op.add_edge 1 2 98,
        Op.add_edge 2 2 97, Op.add_edge 2 2 98, Op.add_edge 3 3 97, Op.set_initial 0,
        Op.set_final 2]).valid w = r.valid w :=
  ⟨by decide, (minimize_preserves_language 0 _ (by decide)).2⟩

end DFA

end FA
